import Mathlib

/-!
# clash-core: fake-IP allocator, proxy facade, pooled tunnel connections

A shallow embedding of `component/fakeip/pool.go`, `adapters/outbound/base.go` and
`component/snell/pool.go`.

Conventions of the embedding:

* Go `uint32` values are natural numbers, every arithmetic step reduced modulo `2^32`;
  `uint16` values are natural numbers reduced modulo `2^16`; Go `int` is taken to be 64 bits wide.
* A `net.IP` is a list of bytes; the `nil` slice is the empty list.
* A Go panic (failed type assertion, index out of range, integer division by zero) and a loop
  that never ends are both the result `none`; an operation that returns gives `some`.
* The allocator's mutex is not modelled: operations are run one after the other.
-/

namespace Cache

/-- Modelled from the spec: the Bounded LRU Store (`LruCache` of `common/cache`), whose source
is not among the files of this development. A store has a fixed capacity `maxSize` and a list
of entries ordered by recency, most recently used first. -/
structure LruCache (κ ν : Type) where
  maxSize : Int
  lru : List (κ × ν)
deriving DecidableEq

variable {κ ν : Type} [DecidableEq κ]

/-- Value stored under `key`, without touching the recency order. -/
def assoc (key : κ) : List (κ × ν) → Option ν
  | [] => none
  | e :: t => if e.1 = key then some e.2 else assoc key t

/-- All entries except those stored under `key`, in the same order. -/
def remove (key : κ) : List (κ × ν) → List (κ × ν)
  | [] => []
  | e :: t => if e.1 = key then remove key t else e :: remove key t

/-- Modelled from the spec: `NewLRUCache(WithSize(n))`, an empty store of capacity `n`. -/
def NewLRUCache (n : Int) : LruCache κ ν := ⟨n, []⟩

/-- Modelled from the spec: `Get(key) → (value, found)` promotes the entry on a hit and leaves
the store alone on a miss. The store after the call is returned next to the answer. -/
def LruCache.Get (c : LruCache κ ν) (key : κ) : LruCache κ ν × Option ν :=
  match assoc key c.lru with
  | some v => ({ c with lru := (key, v) :: remove key c.lru }, some v)
  | none => (c, none)

/-- Modelled from the spec: `Exist(key) → bool`, membership without promotion. -/
def LruCache.Exist (c : LruCache κ ν) (key : κ) : Bool :=
  (assoc key c.lru).isSome

/-- Modelled from the spec: `Set(key, value)` inserts or updates at the most-recent position;
if the size then exceeds the capacity, the single least-recently-used entry is evicted. -/
def LruCache.Set (c : LruCache κ ν) (key : κ) (value : ν) : LruCache κ ν :=
  let l := (key, value) :: remove key c.lru
  if c.maxSize < (l.length : Int) then { c with lru := l.dropLast } else { c with lru := l }

/-- Modelled from the spec: `CloneTo(other)` copies all entries into `other`, preserving
relative recency: the entries are set into `other` from the least to the most recently used. -/
def LruCache.CloneTo (c n : LruCache κ ν) : LruCache κ ν :=
  c.lru.foldr (fun e acc => acc.Set e.1 e.2) n

end Cache

namespace Fakeip

open Cache

/-- A `net.IP`: a slice of bytes. -/
abbrev IP := List (Fin 256)

/-- Conversion of a `uint32` to `byte`: the low eight bits. -/
def toByte (v : Nat) : Fin 256 := ⟨v % 256, Nat.mod_lt _ (by decide)⟩

/-- Wrap-around of `uint32` arithmetic. -/
def wrap32 (v : Nat) : Nat := v % 4294967296

/-- Addition of two `uint32`. -/
def add32 (a b : Nat) : Nat := wrap32 (a + b)

/-- Subtraction of two `uint32`. -/
def sub32 (a b : Nat) : Nat := wrap32 (a + (4294967296 - wrap32 b))

/-- The standard library's `IP.To4`: a 4-byte slice is returned as it is, a 16-byte slice that
is an IPv4-mapped IPv6 address gives its last four bytes, anything else gives `nil` (`none`). -/
def To4 (ip : IP) : Option IP :=
  if ip.length = 4 then some ip
  else if ip.length = 16 ∧ (ip.take 10).all (fun b => b = 0) = true
      ∧ ip.get? 10 = some 255 ∧ ip.get? 11 = some 255 then
    some ((ip.drop 12).take 4)
  else none

/-- The function `ipToUint`: big-endian reading of the first four bytes; a slice shorter than
four bytes makes the index expressions panic. -/
def ipToUint : IP → Option Nat
  | b0 :: b1 :: b2 :: b3 :: _ =>
    some (add32 (add32 (add32 (wrap32 (b0.val * 16777216)) (wrap32 (b1.val * 65536)))
      (wrap32 (b2.val * 256))) b3.val)
  | _ => none

/-- The function `uintToIP`: the four bytes of a `uint32`, most significant first. -/
def uintToIP (v : Nat) : IP :=
  [toByte (v / 16777216), toByte (v / 65536), toByte (v / 256), toByte v]

/-- Keys of the allocator's store: host names (`string`) and address offsets (`uint32`). -/
inductive Key where
  | str (s : String)
  | u32 (n : Nat)
deriving DecidableEq

/-- Values of the allocator's store: addresses (`net.IP`) and host names (`string`). -/
inductive Val where
  | ip (a : IP)
  | str (s : String)
deriving DecidableEq

/-- A `net.IPNet`: the network address and the prefix mask, the mask given by what
`Mask.Size()` returns for it (`ones` leading one bits out of `bits`; `0, 0` when the mask is
not in canonical form). -/
structure IPNet where
  IP : IP
  ones : Nat
  bits : Nat
deriving DecidableEq

/-- The struct `Pool`. The mutex and the domain trie (used by `LookupHost` only) are left out. -/
structure Pool where
  max : Nat
  min : Nat
  gateway : Nat
  offset : Nat
  ipnet : IPNet
  cache : LruCache Key Val
deriving DecidableEq

/-- The loop of `Pool.get`, started with cursor `offset`; `current` is the cursor saved before
the loop. The first argument bounds the number of iterations. -/
def getLoop (p : Pool) (current : Nat) : Nat → Nat → Option Nat
  | 0, _ => none
  | fuel + 1, offset =>
    if sub32 p.max p.min = 0 then none
    else
      let offset1 := add32 offset 1 % sub32 p.max p.min
      if offset1 = current then some offset1
      else if !p.cache.Exist (Key.u32 offset1) then some offset1
      else getLoop p current fuel offset1

/-- The cursor after `d + 1` iterations of the loop of `Pool.get` started with cursor
`offset`, for a loop that has not ended before. -/
def cursorAfter (p : Pool) : Nat → Nat → Nat
  | 0, offset => add32 offset 1 % sub32 p.max p.min
  | d + 1, offset => cursorAfter p d (add32 offset 1 % sub32 p.max p.min)

/-- The method `Pool.get`. The cursor after the first iteration is below `max - min` and moves
through a cycle of that length while the store is only read, so a loop that has not ended
after `max - min + 1` iterations never ends: a larger bound gives the same result
(`getLoop_fuel` below). -/
def Pool.get (p : Pool) (host : String) : Option (Pool × IP) :=
  match getLoop p p.offset (sub32 p.max p.min + 1) p.offset with
  | none => none
  | some offset =>
    let ip := uintToIP (sub32 (add32 p.min offset) 1)
    some ({ p with offset := offset, cache := p.cache.Set (Key.u32 offset) (Val.str host) }, ip)

/-- The method `Pool.Lookup`. -/
def Pool.Lookup (p : Pool) (host : String) : Option (Pool × IP) :=
  match p.cache.Get (Key.str host) with
  | (c1, some (Val.ip ip)) =>
    match (To4 ip).bind ipToUint with
    | none => none
    | some n =>
      let offset := add32 (sub32 n p.min) 1
      some ({ p with cache := (c1.Get (Key.u32 offset)).1 }, ip)
  | (_, some (Val.str _)) => none
  | (_, none) =>
    match p.get host with
    | none => none
    | some (p1, ip) => some ({ p1 with cache := p1.cache.Set (Key.str host) (Val.ip ip) }, ip)

/-- The method `Pool.LookBack`. -/
def Pool.LookBack (p : Pool) (ip : IP) : Option (Pool × String × Bool) :=
  match To4 ip with
  | none => some (p, "", false)
  | some ip4 =>
    match (To4 ip4).bind ipToUint with
    | none => none
    | some n =>
      let offset := add32 (sub32 n p.min) 1
      match p.cache.Get (Key.u32 offset) with
      | (c1, some (Val.str host)) =>
        some ({ p with cache := (c1.Get (Key.str host)).1 }, host, true)
      | (_, some (Val.ip _)) => none
      | (_, none) => some (p, "", false)

/-- The method `Pool.Exist`. -/
def Pool.Exist (p : Pool) (ip : IP) : Option Bool :=
  match To4 ip with
  | none => some false
  | some ip4 =>
    match (To4 ip4).bind ipToUint with
    | none => none
    | some n => some (p.cache.Exist (Key.u32 (add32 (sub32 n p.min) 1)))

/-- The method `Pool.Gateway`. -/
def Pool.Gateway (p : Pool) : IP := uintToIP p.gateway

/-- The method `Pool.PatchFrom`. -/
def Pool.PatchFrom (p o : Pool) : Pool := { p with cache := o.cache.CloneTo p.cache }

/-- Wrap-around of 64-bit `int` arithmetic. -/
def wrapInt64 (x : Int) : Int :=
  (x + 9223372036854775808) % 18446744073709551616 - 9223372036854775808

/-- The expression `1<<uint(bits-ones) - 2` of `New`, in 64-bit `int`. `Mask.Size()` returns
`ones ≤ bits`, so the shift count is the natural number `bits - ones`. -/
def total (ipnet : IPNet) : Int :=
  wrapInt64
    (wrapInt64 (if ipnet.bits - ipnet.ones < 64 then 2 ^ (ipnet.bits - ipnet.ones) else 0) - 2)

/-- The function `New`. The outer `none` is the panic of `ipToUint` on a network address shorter
than four bytes; the error of the source is `Except.error`. -/
def New (ipnet : IPNet) (size : Int) : Option (Except String Pool) :=
  match ipToUint ipnet.IP with
  | none => none
  | some n =>
    let min := add32 n 2
    if total ipnet ≤ 0 then some (.error "ipnet don't have valid ip")
    else
      let max := sub32 (add32 min ((total ipnet % 4294967296).toNat)) 1
      some (.ok
        { min := min, max := max, gateway := sub32 min 1, offset := 0, ipnet := ipnet,
          cache := NewLRUCache (size * 2) })

/-- The block 198.18.0.0/16. -/
def exampleNet : IPNet := ⟨[198, 18, 0, 0], 16, 32⟩

/-- The pool that New builds for 198.18.0.0/16 and size 1000: min is 198.18.0.2, max is
198.18.255.255, the gateway is 198.18.0.1. -/
def examplePool : Pool :=
  { min := 3323068418, max := 3323133951, gateway := 3323068417, offset := 0,
    ipnet := exampleNet, cache := NewLRUCache 2000 }

/-- A call of one of the three methods that take the allocator's lock. -/
inductive Op where
  | Lookup (host : String)
  | LookBack (ip : IP)
  | Exist (ip : IP)
deriving DecidableEq

/-- The pool after one call. -/
def Pool.step (p : Pool) : Op → Option Pool
  | .Lookup host => (p.Lookup host).map (fun r => r.1)
  | .LookBack ip => (p.LookBack ip).map (fun r => r.1)
  | .Exist ip => (p.Exist ip).map (fun _ => p)

/-- The pool after a sequence of calls. -/
def Pool.run (p : Pool) : List Op → Option Pool
  | [] => some p
  | op :: ops => (p.step op).bind (fun q => q.run ops)

/-- The addresses returned by looking up the hosts of a list in order, with the final pool. -/
def Pool.lookups (p : Pool) : List String → Option (Pool × List IP)
  | [] => some (p, [])
  | h :: hs =>
    match p.Lookup h with
    | none => none
    | some (p1, a) =>
      match p1.lookups hs with
      | none => none
      | some (p2, as) => some (p2, a :: as)

/-- Entries have the dynamic types that the type assertions of the methods expect: a host name
maps to a 4-byte address, an offset maps to a host name. -/
def Typed : Key × Val → Prop
  | (.str _, .ip a) => a.length = 4
  | (.u32 _, .str _) => True
  | _ => False

/-- What every state of a pool built by `New` satisfies. -/
structure Pool.WF (p : Pool) : Prop where
  modulus_pos : 0 < sub32 p.max p.min
  offset_lt : p.offset < sub32 p.max p.min
  typed : ∀ e ∈ p.cache.lru, Typed e
  nodup : (p.cache.lru.map Prod.fst).Nodup
  size_le : p.cache.lru.length ≤ p.cache.maxSize.toNat

/-- The fields that no method writes. -/
def Pool.SameConfig (p q : Pool) : Prop :=
  q.max = p.max ∧ q.min = p.min ∧ q.gateway = p.gateway ∧ q.ipnet = p.ipnet
    ∧ q.cache.maxSize = p.cache.maxSize

/-- The forward entry of a host: what the store holds under the host name, read without
promotion. -/
def Pool.forward (p : Pool) (host : String) : Option Val := assoc (Key.str host) p.cache.lru

/-- The reverse entry of an address: what the store holds under the offset that LookBack and
Exist compute for the address, read without promotion. -/
def Pool.reverse (p : Pool) (ip : IP) : Option Val :=
  match (To4 ip).bind ipToUint with
  | none => none
  | some n => assoc (Key.u32 (add32 (sub32 n p.min) 1)) p.cache.lru

/-- Numeric order of two addresses: both are at least four bytes long and the first reads as
a smaller `uint32` than the second. -/
def ipLt (a b : IP) : Prop :=
  match ipToUint a, ipToUint b with
  | some x, some y => x < y
  | _, _ => False

instance (a b : IP) : Decidable (ipLt a b) := by
  unfold ipLt; split <;> infer_instance

/-- An IPv4 CIDR block: a 4-byte network address whose host bits are zero, and a prefix length
of at most 32 bits. -/
def IPNet.IsCIDR4 (ipnet : IPNet) : Prop :=
  ipnet.bits = 32 ∧ ipnet.ones ≤ 32 ∧ ipnet.IP.length = 4 ∧
    ∃ n, ipToUint ipnet.IP = some n ∧ n % 2 ^ (32 - ipnet.ones) = 0

/-- Bound on a key of the store while the cursor has only moved up to `k` and only the hosts
of `S` have been looked up. -/
def KeyBound (k : Nat) (S : List String) : Key → Prop
  | .str h => h ∈ S
  | .u32 o => o ≤ k

/-- Six pairwise distinct host names. -/
def hosts6 : List String := ["a.com", "b.com", "c.com", "d.com", "e.com", "f.com"]

/-- The pool of 198.18.0.0/16 with size 1000 after Lookup of a.com, which is given
198.18.0.2. -/
def exampleOld : Pool :=
  { examplePool with
    offset := 1
    cache := ⟨2000, [(Key.str "a.com", Val.ip [198, 18, 0, 2]), (Key.u32 1, Val.str "a.com")]⟩ }

/-- The block 198.18.0.0/30: two host addresses, 198.18.0.1 and 198.18.0.2. -/
def net30 : IPNet := ⟨[198, 18, 0, 0], 30, 32⟩

/-- The pool that New builds for 198.18.0.0/30 and size 2: min is 198.18.0.2, max is
198.18.0.3, the gateway is 198.18.0.1. -/
def pool30 : Pool :=
  { min := 3323068418, max := 3323068419, gateway := 3323068417, offset := 0,
    ipnet := net30, cache := NewLRUCache 4 }

/-- The pool of 198.18.0.0/30 with size 2 after Lookup of a.com and then of b.com. -/
def staleOld : Pool :=
  { pool30 with
    cache := ⟨4, [(Key.str "b.com", Val.ip [198, 18, 0, 1]), (Key.u32 0, Val.str "b.com"),
      (Key.str "a.com", Val.ip [198, 18, 0, 1])]⟩ }

/-- The block 198.18.0.0/29: six host addresses, 198.18.0.1 to 198.18.0.6. -/
def net29 : IPNet := ⟨[198, 18, 0, 0], 29, 32⟩

/-- The pool that New builds for 198.18.0.0/29 and size 6: min is 198.18.0.2, max is
198.18.0.7, the gateway is 198.18.0.1. -/
def pool29 : Pool :=
  { min := 3323068418, max := 3323068423, gateway := 3323068417, offset := 0,
    ipnet := net29, cache := NewLRUCache 12 }

/-- Five pairwise distinct host names, which fill the cursor range of 198.18.0.0/29. -/
def hosts5 : List String := ["a.com", "b.com", "c.com", "d.com", "e.com"]

/-- The pool of 198.18.0.0/29 with size 6 after Lookup of the five hosts of `hosts5`, if the
calls return. -/
def fullPool29 : Option Pool := pool29.run (hosts5.map Op.Lookup)

/-- The offset under which LookBack and Exist look for the reverse entry of the address that
reads as `v`, on a pool whose lower bound is `pmin`. -/
def offsetOf (pmin v : Nat) : Nat := add32 (sub32 v pmin) 1

/-- The entries of a store go in adjacent couples: a forward entry, from a host to an address,
next to the reverse entry at the offset of that address, which names the host, in either
order. -/
inductive Paired (pmin : Nat) : List (Key × Val) → Prop where
  | nil : Paired pmin []
  | fwdRev (h : String) (v : Nat) (l : List (Key × Val)) : v < 4294967296 → Paired pmin l →
      Paired pmin
        ((Key.str h, Val.ip (uintToIP v)) :: (Key.u32 (offsetOf pmin v), Val.str h) :: l)
  | revFwd (h : String) (v : Nat) (l : List (Key × Val)) : v < 4294967296 → Paired pmin l →
      Paired pmin
        ((Key.u32 (offsetOf pmin v), Val.str h) :: (Key.str h, Val.ip (uintToIP v)) :: l)

/-- The offsets that have a reverse entry in a list of entries. -/
def offsets (l : List (Key × Val)) : List Nat :=
  l.filterMap (fun e => match e.1 with
    | Key.u32 o => some o
    | Key.str _ => none)

/-- The hosts that have a forward entry in the store of a pool. -/
def Pool.hosts (p : Pool) : List String :=
  p.cache.lru.filterMap (fun e => match e.1 with
    | Key.str h => some h
    | Key.u32 _ => none)

/-- What every state of a pool built by `New` with a requested size below `max - min`
satisfies: the entries go in couples, and every offset with a reverse entry is in the cursor
range. -/
structure Pool.Coupled (p : Pool) : Prop where
  paired : Paired p.min p.cache.lru
  below : ∀ e ∈ p.cache.lru, ∀ o, e.1 = Key.u32 o → o < sub32 p.max p.min

/-- The pool that New builds for 198.18.0.0/29 and size 2. -/
def smallPool29 : Pool :=
  { min := 3323068418, max := 3323068423, gateway := 3323068417, offset := 0,
    ipnet := net29, cache := NewLRUCache 4 }

/-- The pool of 198.18.0.0/29 with size 2 after Lookup of a.com, b.com and c.com: the couple
of a.com has been evicted. -/
def coupledPool : Pool :=
  { smallPool29 with
    offset := 3
    cache := ⟨4, [(Key.str "c.com", Val.ip [198, 18, 0, 4]), (Key.u32 3, Val.str "c.com"),
      (Key.str "b.com", Val.ip [198, 18, 0, 3]), (Key.u32 2, Val.str "b.com")]⟩ }

end Fakeip

namespace FifoLog

/-- Modelled from the spec: the Bounded FIFO Log (`Queue` of `common/queue`), whose source is
not among the files of this development: a capacity and the items, oldest first. -/
structure Queue (α : Type) where
  capacity : Nat
  items : List α
deriving DecidableEq

variable {α : Type}

/-- Modelled from the spec: `queue.New(n)`, an empty log of capacity `n`. -/
def New (n : Nat) : Queue α := ⟨n, []⟩

/-- Modelled from the spec: `Put(value)` appends; if the size then exceeds the capacity, the
oldest entry is dropped. -/
def Queue.Put (q : Queue α) (value : α) : Queue α :=
  let l := q.items ++ [value]
  if q.capacity < l.length then { q with items := l.tail } else { q with items := l }

/-- Modelled from the spec: `Pop()` removes and returns the oldest entry. -/
def Queue.Pop (q : Queue α) : Queue α × Option α :=
  match q.items with
  | [] => (q, none)
  | x :: t => ({ q with items := t }, some x)

/-- Modelled from the spec: `Last()` peeks the most recently put entry without removing it. -/
def Queue.Last (q : Queue α) : Option α := q.items.getLast?

/-- Modelled from the spec: `Copy()` returns a snapshot in insertion order, oldest first. -/
def Queue.Copy (q : Queue α) : List α := q.items

/-- Modelled from the spec: `Len()` returns the current size. -/
def Queue.Len (q : Queue α) : Nat := q.items.length

end FifoLog

namespace Outbound

open FifoLog

/-- An `error` value; `nil` is `none`. -/
abbrev Error := Option String

/-- A connection handed out by an adapter, named by a number; `nil` is `none`. -/
abbrev Conn := Option Nat

/-- The struct `C.DelayHistory`: a time stamp and a `uint16` delay in milliseconds. -/
structure DelayHistory where
  Time : Nat
  Delay : Nat
deriving DecidableEq

/-- The struct `Proxy`: the liveness flag and the delay history. The wrapped adapter is a
collaborator; what its calls return is an argument of the methods below. -/
structure Proxy where
  alive : Bool
  history : Queue DelayHistory
deriving DecidableEq

/-- The function `NewProxy`. -/
def NewProxy : Proxy := { alive := true, history := FifoLog.New 10 }

/-- The method `Proxy.Alive`. -/
def Proxy.Alive (p : Proxy) : Bool := p.alive

/-- The method `Proxy.DialContext`; `adapter` is what the wrapped adapter's `DialContext`
returns. -/
def Proxy.DialContext (p : Proxy) (adapter : Conn × Error) : Proxy × Conn × Error :=
  match adapter with
  | (conn, some err) => ({ p with alive := false }, conn, some err)
  | (conn, none) => (p, conn, none)

/-- The method `Proxy.DelayHistory`. -/
def Proxy.DelayHistory (p : Proxy) : List DelayHistory :=
  p.history.Copy.foldl (fun histories item => histories ++ [item]) []

/-- The method `Proxy.LastDelay`. -/
def Proxy.LastDelay (p : Proxy) : Nat :=
  if !p.alive then 65535
  else
    match p.history.Last with
    | none => 65535
    | some history => if history.Delay = 0 then 65535 else history.Delay

/-- What the collaborators of one `URLTest` call do: the clock read by the deferred function,
the error of `urlToMetadata`, the result of the adapter's `DialContext`, the error of
`http.NewRequest`, the error of `client.Do`, and the whole milliseconds elapsed since the
start of the dial (`time.Since(start) / time.Millisecond`). -/
structure ProbeEnv where
  now : Nat
  metadata : Error
  dial : Conn × Error
  request : Error
  send : Error
  elapsed : Nat
deriving DecidableEq

/-- The body of `Proxy.URLTest` up to its return statement: the facade as the body leaves it,
and the named results `t` and `err`. The conversion `uint16(...)` keeps the low 16 bits. -/
def Proxy.URLTestBody (p : Proxy) (env : ProbeEnv) : Proxy × Nat × Error :=
  match env.metadata with
  | some err => (p, 0, some err)
  | none =>
    match p.DialContext env.dial with
    | (p1, _, some err) => (p1, 0, some err)
    | (p1, _, none) =>
      match env.request with
      | some err => (p1, 0, some err)
      | none =>
        match env.send with
        | some err => (p1, 0, some err)
        | none => (p1, env.elapsed % 65536, none)

/-- The method `Proxy.URLTest`: the body, then the deferred function, which stores the
liveness, puts one record and pops the oldest one when more than 10 are held. -/
def Proxy.URLTest (p : Proxy) (env : ProbeEnv) : Proxy × Nat × Error :=
  match p.URLTestBody env with
  | (p1, t, err) =>
    let record : Outbound.DelayHistory := { Time := env.now, Delay := if err = none then t else 0 }
    let history := p1.history.Put record
    let history := if 10 < history.Len then history.Pop.1 else history
    ({ alive := decide (err = none), history := history }, t, err)

/-- What NewProxy establishes and every method keeps: the history has capacity 10 and holds
at most 10 records. -/
def Proxy.Valid (p : Proxy) : Prop :=
  p.history.capacity = 10 ∧ p.history.items.length ≤ 10

/-- Every step of the probe goes through: no collaborator returns an error. -/
def ProbeEnv.succeeds (env : ProbeEnv) : Prop :=
  env.metadata = none ∧ env.dial.2 = none ∧ env.request = none ∧ env.send = none

/-- A probe in which every step goes through and 65535 ms elapse. -/
def probe65535 : ProbeEnv :=
  { now := 1, metadata := none, dial := (some 1, none), request := none, send := none,
    elapsed := 65535 }

/-- A probe in which every step goes through and 250 ms elapse. -/
def probe250 : ProbeEnv :=
  { now := 1, metadata := none, dial := (some 1, none), request := none, send := none,
    elapsed := 250 }

/-- A probe whose dial fails. -/
def probeUnreachable : ProbeEnv :=
  { now := 1, metadata := none, dial := (none, some "connection refused"), request := none,
    send := none, elapsed := 0 }

instance (env : ProbeEnv) : Decidable env.succeeds := by
  unfold ProbeEnv.succeeds; infer_instance

/-- The method `Proxy.Dial`: `DialContext` under a context with the TCP timeout; `adapter` is
what the wrapped adapter's `DialContext` returns under that context. -/
def Proxy.Dial (p : Proxy) (adapter : Conn × Error) : Proxy × Conn × Error :=
  p.DialContext adapter

/-- The record that the deferred function of `URLTest` puts for a probe: stamped with the
clock, with the low 16 bits of the elapsed milliseconds when every step goes through and with
0 otherwise. -/
def recordOf (env : ProbeEnv) : DelayHistory :=
  { Time := env.now, Delay := if env.succeeds then env.elapsed % 65536 else 0 }

/-- The facade after a sequence of `URLTest` calls, the first of the list first. -/
def Proxy.probes (p : Proxy) : List ProbeEnv → Proxy
  | [] => p
  | env :: envs => Proxy.probes (p.URLTest env).1 envs

/-- A probe in which every step goes through and 65536 ms elapse. -/
def probe65536 : ProbeEnv :=
  { now := 1, metadata := none, dial := (some 1, none), request := none, send := none,
    elapsed := 65536 }

/-- Twelve probes, stamped 1 to 12: the odd ones go through in 100 + stamp ms, the even ones
fail at the dial. -/
def probes12 : List ProbeEnv :=
  (List.range 12).map (fun i =>
    { now := i + 1, metadata := none,
      dial := if i % 2 = 0 then (some 1, none) else (none, some "connection refused"),
      request := none, send := none, elapsed := 101 + i })

/-- The facade that `NewProxy` builds, with a history queue that retains up to `c` items by
itself: `c = 10` is the bounded log of the spec, as in `NewProxy`; a larger `c` is a queue on
which the argument of `queue.New(10)` puts no bound, so that `Put` only appends as long as
fewer than `c` items are held. -/
def NewProxyWith (c : Nat) : Proxy := { alive := true, history := ⟨c, []⟩ }

/-- The history queue after the records of a list of probes have been put one after the
other, with no `Pop` in between. -/
def putAll (q : Queue DelayHistory) : List ProbeEnv → Queue DelayHistory
  | [] => q
  | env :: envs => putAll (q.Put (recordOf env)) envs

end Outbound

namespace ResourcePool

/-- Modelled from the spec: the Elastic Resource Pool (`Pool` of `component/pool`), whose source
is not among the files of this development: the bound on retained idle items, the maximal age
of an idle item in milliseconds, and the idle items with their ages. The factory is left
out. -/
structure Pool (α : Type) where
  maxIdle : Nat
  maxAge : Nat
  idle : List (α × Nat)
deriving DecidableEq

variable {α : Type}

/-- Modelled from the spec: `Put(item)`: if fewer than `maxIdle` items are currently idle and
the item's age is below `maxAge`, retain it; otherwise discard it and invoke `onEvict`. The
age that the pool finds for the item is an argument; the item handed to `onEvict`, if any,
is returned next to the pool. -/
def Pool.Put (p : Pool α) (item : α) (age : Nat) : Pool α × Option α :=
  if p.idle.length < p.maxIdle ∧ age < p.maxAge then
    ({ p with idle := p.idle ++ [(item, age)] }, none)
  else (p, some item)

end ResourcePool

namespace Tunnel

/-- A non-nil `error` value as the wrapper tells them apart: the value
`shadowaead.ErrZeroChunk`, or any other error. -/
inductive Err where
  | ZeroChunk
  | other (msg : String)
deriving DecidableEq

/-- An `error` value; `nil` is `none`. -/
abbrev Error := Option Err

/-- A byte buffer handed to `Read`. -/
abbrev Buf := List (Fin 256)

/-- The struct `Snell`, as far as the wrapper touches it: the flag `reply`, and the rest of
the connection, of a type `σ` that the wrapper never looks into. -/
structure Snell (σ : Type) where
  reply : Bool
  conn : σ
deriving DecidableEq

variable {σ : Type}

/-- The method `PoolConn.Read`. The method `Snell.Read` of the embedded connection is a
collaborator, given by `read`: from the connection and the buffer it gives the connection
and the buffer after the call, and the two results. -/
def PoolConn.Read (read : Snell σ → Buf → Snell σ × Buf × Nat × Error) (pc : Snell σ) (b : Buf) :
    Snell σ × Buf × Nat × Error :=
  let reply := pc.reply
  match read pc b with
  | (s1, b1, n, err) =>
    if err = some Err.ZeroChunk then
      if !reply then read { s1 with reply := false } b1
      else (s1, b1, n, err)
    else (s1, b1, n, err)

/-- The method `PoolConn.Write`; `write` is the method `Snell.Write` of the embedded
connection. -/
def PoolConn.Write (write : Snell σ → Buf → Snell σ × Nat × Error) (pc : Snell σ) (b : Buf) :
    Snell σ × Nat × Error :=
  write pc b

/-- The struct `Pool` of the connection manager: the underlying pool, and, to tell what has
been closed, the list of the connections on which `Close` has been called. -/
structure Pool (σ : Type) where
  pool : ResourcePool.Pool (Snell σ)
  closed : List (Snell σ)
deriving DecidableEq

/-- The function `NewPool`: an underlying pool of age 15000 and size 10 whose eviction
callback closes the connection. -/
def NewPool : Pool σ := { pool := ⟨10, 15000, []⟩, closed := [] }

/-- The method `Pool.Put`. The function `HalfClose` is a collaborator, given by `halfClose`:
from the connection it gives the connection after the handshake and the error. `age` is the
age that the underlying pool finds for the connection. -/
def Pool.Put (halfClose : Snell σ → Snell σ × Error) (age : Nat) (p : Pool σ) (conn : Snell σ) :
    Pool σ :=
  match halfClose conn with
  | (conn1, some _) => { p with closed := p.closed ++ [conn1] }
  | (conn1, none) =>
    match p.pool.Put conn1 age with
    | (pool1, some item) => { pool := pool1, closed := p.closed ++ [item] }
    | (pool1, none) => { p with pool := pool1 }

/-- The method `PoolConn.Close`. -/
def PoolConn.Close (halfClose : Snell σ → Snell σ × Error) (age : Nat) (p : Pool σ)
    (pc : Snell σ) : Pool σ × Error :=
  (p.Put halfClose age pc, none)

/-- A connection whose reads are scripted: the list of the results of its coming reads. Each
read sets the flag `reply`, as reading the reply header does. -/
def scriptedRead (s : Snell (List (Nat × Error))) (b : Buf) :
    Snell (List (Nat × Error)) × Buf × Nat × Error :=
  match s.conn with
  | [] => (s, b, 0, some (Err.other "EOF"))
  | (n, err) :: rest => ({ reply := true, conn := rest }, b, n, err)

/-- A handshake that goes through and clears the flag `reply`. -/
def halfCloseOk (s : Snell Nat) : Snell Nat × Error := ({ s with reply := false }, none)

/-- A handshake that fails. -/
def halfCloseFails (s : Snell Nat) : Snell Nat × Error := (s, some (Err.other "broken pipe"))

/-- The manager after ten connections, numbered 0 to 9, have been returned to a new one with
a handshake that goes through. -/
def tenIdle : Pool Nat :=
  (List.range 10).foldl (fun p i => p.Put halfCloseOk 0 { reply := true, conn := i }) NewPool

end Tunnel

/-! ## Facts about the store -/

namespace Cache

variable {κ ν : Type} [DecidableEq κ]

theorem remove_eq_filter (key : κ) (l : List (κ × ν)) :
    remove key l = l.filter (fun e => decide (e.1 ≠ key)) := by
  induction l with
  | nil => rfl
  | cons e t ih =>
    by_cases h : e.1 = key <;> simp [remove, h, ih]

theorem mem_remove {key : κ} {l : List (κ × ν)} {e : κ × ν} :
    e ∈ remove key l ↔ e ∈ l ∧ e.1 ≠ key := by
  simp [remove_eq_filter]

theorem remove_sublist (key : κ) (l : List (κ × ν)) : (remove key l).Sublist l := by
  rw [remove_eq_filter]; exact List.filter_sublist l

theorem length_remove_le (key : κ) (l : List (κ × ν)) : (remove key l).length ≤ l.length :=
  (remove_sublist key l).length_le

theorem assoc_eq_none_iff {key : κ} {l : List (κ × ν)} :
    assoc key l = none ↔ key ∉ l.map Prod.fst := by
  induction l with
  | nil => simp [assoc]
  | cons e t ih =>
    by_cases h : e.1 = key
    · simp [assoc, h]
    · simp only [assoc, h, if_false, ih, List.map_cons, List.mem_cons, not_or]
      constructor
      · intro h1; exact ⟨fun h2 => h h2.symm, h1⟩
      · intro h1; exact h1.2

theorem mem_of_assoc {key : κ} {v : ν} {l : List (κ × ν)} (h : assoc key l = some v) :
    (key, v) ∈ l := by
  induction l with
  | nil => simp [assoc] at h
  | cons e t ih =>
    by_cases he : e.1 = key
    · simp only [assoc, he, if_true, Option.some.injEq] at h
      have : e = (key, v) := Prod.ext he h
      simp [this]
    · simp only [assoc, he, if_false] at h
      exact List.mem_cons_of_mem _ (ih h)

theorem assoc_remove_self (key : κ) (l : List (κ × ν)) : assoc key (remove key l) = none := by
  rw [assoc_eq_none_iff]
  intro h
  obtain ⟨e, he, hk⟩ := List.mem_map.1 h
  exact (mem_remove.1 he).2 hk

theorem assoc_remove_of_ne {key k : κ} (h : k ≠ key) (l : List (κ × ν)) :
    assoc k (remove key l) = assoc k l := by
  induction l with
  | nil => rfl
  | cons e t ih =>
    by_cases he : e.1 = key
    · have : ¬ e.1 = k := fun h1 => h (h1.symm.trans he)
      simp only [remove, assoc, if_pos he, if_neg this, ih]
    · by_cases hk : e.1 = k
      · simp only [remove, assoc, if_neg he, if_pos hk]
      · simp only [remove, assoc, if_neg he, if_neg hk, ih]

theorem remove_eq_self {key : κ} {l : List (κ × ν)} (h : assoc key l = none) :
    remove key l = l := by
  rw [remove_eq_filter, List.filter_eq_self]
  intro e he
  have := assoc_eq_none_iff.1 h
  simp only [decide_eq_true_eq]
  intro hk
  exact this (List.mem_map.2 ⟨e, he, hk⟩)

theorem nodup_remove {key : κ} {l : List (κ × ν)} (h : (l.map Prod.fst).Nodup) :
    ((remove key l).map Prod.fst).Nodup :=
  List.Nodup.sublist ((remove_sublist key l).map _) h

theorem nodup_promote {key : κ} (v : ν) {l : List (κ × ν)} (h : (l.map Prod.fst).Nodup) :
    (((key, v) :: remove key l).map Prod.fst).Nodup := by
  rw [List.map_cons, List.nodup_cons]
  exact ⟨assoc_eq_none_iff.1 (assoc_remove_self key l), nodup_remove h⟩

theorem perm_promote {key : κ} {v : ν} {l : List (κ × ν)} (hn : (l.map Prod.fst).Nodup)
    (h : assoc key l = some v) : ((key, v) :: remove key l).Perm l := by
  induction l with
  | nil => simp [assoc] at h
  | cons e t ih =>
    rw [List.map_cons, List.nodup_cons] at hn
    by_cases he : e.1 = key
    · simp only [assoc, he, if_true, Option.some.injEq] at h
      have h1 : e = (key, v) := Prod.ext he h
      have h2 : assoc key t = none := by
        rw [assoc_eq_none_iff, ← he]; exact hn.1
      simp [remove, he, remove_eq_self h2, h1]
    · simp only [assoc, he, if_false] at h
      simp only [remove, he, if_false]
      exact (List.Perm.swap e (key, v) _).trans ((ih hn.2 h).cons e)

theorem assoc_promote {key : κ} {v : ν} {l : List (κ × ν)} (h : assoc key l = some v) (k : κ) :
    assoc k ((key, v) :: remove key l) = assoc k l := by
  by_cases hk : key = k
  · subst hk; simp [assoc, h]
  · have : k ≠ key := fun h1 => hk h1.symm
    simp [assoc, hk, assoc_remove_of_ne this]

/-! ### `Get` -/

theorem Get_maxSize (c : LruCache κ ν) (key : κ) : (c.Get key).1.maxSize = c.maxSize := by
  unfold LruCache.Get; split <;> rfl

theorem Get_snd (c : LruCache κ ν) (key : κ) : (c.Get key).2 = assoc key c.lru := by
  unfold LruCache.Get; split <;> simp [*]

theorem assoc_Get (c : LruCache κ ν) (key k : κ) :
    assoc k (c.Get key).1.lru = assoc k c.lru := by
  unfold LruCache.Get
  split
  · next v h => exact assoc_promote h k
  · rfl

theorem mem_Get {c : LruCache κ ν} {key : κ} {e : κ × ν} (h : e ∈ (c.Get key).1.lru) :
    e ∈ c.lru := by
  unfold LruCache.Get at h
  split at h
  · next v hv =>
    rcases List.mem_cons.1 h with h1 | h1
    · rw [h1]; exact mem_of_assoc hv
    · exact (mem_remove.1 h1).1
  · exact h

theorem nodup_Get {c : LruCache κ ν} (key : κ) (h : (c.lru.map Prod.fst).Nodup) :
    ((c.Get key).1.lru.map Prod.fst).Nodup := by
  unfold LruCache.Get
  split
  · exact nodup_promote _ h
  · exact h

theorem perm_Get {c : LruCache κ ν} (key : κ) (h : (c.lru.map Prod.fst).Nodup) :
    (c.Get key).1.lru.Perm c.lru := by
  unfold LruCache.Get
  split
  · next v hv => exact perm_promote h hv
  · exact List.Perm.refl _

/-! ### `Set` -/

theorem Set_maxSize (c : LruCache κ ν) (key : κ) (v : ν) : (c.Set key v).maxSize = c.maxSize := by
  unfold LruCache.Set; simp only; split <;> rfl

theorem mem_Set {c : LruCache κ ν} {key : κ} {v : ν} {e : κ × ν} (h : e ∈ (c.Set key v).lru) :
    e = (key, v) ∨ (e ∈ c.lru ∧ e.1 ≠ key) := by
  unfold LruCache.Set at h
  simp only at h
  have h1 : e ∈ (key, v) :: remove key c.lru := by
    split at h
    · exact List.mem_of_mem_dropLast h
    · exact h
  rcases List.mem_cons.1 h1 with h2 | h2
  · exact Or.inl h2
  · exact Or.inr (mem_remove.1 h2)

theorem nodup_Set {c : LruCache κ ν} (key : κ) (v : ν) (h : (c.lru.map Prod.fst).Nodup) :
    ((c.Set key v).lru.map Prod.fst).Nodup := by
  unfold LruCache.Set
  simp only
  split
  · exact List.Nodup.sublist ((List.dropLast_sublist _).map _) (nodup_promote v h)
  · exact nodup_promote v h

theorem assoc_Set_self {c : LruCache κ ν} (key : κ) (v : ν) (h : 1 ≤ c.maxSize) :
    assoc key (c.Set key v).lru = some v := by
  unfold LruCache.Set
  simp only
  split
  · next hlt =>
    cases hr : remove key c.lru with
    | nil => rw [hr] at hlt; simp at hlt; omega
    | cons e t => simp [List.dropLast, assoc]
  · simp [assoc]

theorem length_Set_le {c : LruCache κ ν} (key : κ) (v : ν)
    (h : c.lru.length ≤ c.maxSize.toNat) :
    (c.Set key v).lru.length ≤ (c.Set key v).maxSize.toNat := by
  have h1 := length_remove_le key c.lru
  rw [Set_maxSize]
  unfold LruCache.Set
  simp only
  split
  · simp only [List.length_dropLast, List.length_cons, Nat.add_sub_cancel]
    omega
  · next hlt =>
    simp only [List.length_cons] at hlt ⊢
    omega

theorem head_Set (c : LruCache κ ν) (key : κ) (v : ν) (h : 1 ≤ c.maxSize) :
    ∃ t, (c.Set key v).lru = (key, v) :: t := by
  unfold LruCache.Set
  simp only
  split
  · next hlt =>
    cases hr : remove key c.lru with
    | nil => rw [hr] at hlt; simp at hlt; omega
    | cons e t => exact ⟨(e :: t).dropLast, by simp [List.dropLast]⟩
  · exact ⟨_, rfl⟩

theorem assoc_Set_Set (c : LruCache κ ν) {k1 k2 : κ} (v1 v2 : ν) (hne : k1 ≠ k2)
    (h : 2 ≤ c.maxSize) : assoc k1 ((c.Set k1 v1).Set k2 v2).lru = some v1 := by
  obtain ⟨t, ht⟩ := head_Set c k1 v1 (by omega)
  have hcap : (c.Set k1 v1).maxSize = c.maxSize := Set_maxSize c k1 v1
  have hrem : remove k2 ((k1, v1) :: t) = (k1, v1) :: remove k2 t := by
    simp only [remove, if_neg hne]
  have hne2 : ¬ k2 = k1 := fun h1 => hne h1.symm
  generalize c.Set k1 v1 = c1 at ht hcap
  unfold LruCache.Set
  simp only [ht, hrem, hcap]
  split
  · next hlt =>
    cases hr : remove k2 t with
    | nil => rw [hr] at hlt; simp at hlt; omega
    | cons e r => simp [List.dropLast, assoc, hne2]
  · simp [assoc, hne2]

/-! ### `CloneTo` -/

theorem foldr_Set_empty (n : LruCache κ ν) (hn : n.lru = []) :
    ∀ l : List (κ × ν), (l.map Prod.fst).Nodup → (l.length : Int) ≤ n.maxSize →
      l.foldr (fun e acc => acc.Set e.1 e.2) n = { n with lru := l } := by
  intro l
  induction l with
  | nil =>
    intro _ _
    obtain ⟨m, lru⟩ := n
    simp only at hn
    subst hn
    rfl
  | cons e t ih =>
    intro hnd hlen
    rw [List.map_cons, List.nodup_cons] at hnd
    rw [List.length_cons] at hlen
    rw [List.foldr_cons, ih hnd.2 (by push_cast at hlen; omega)]
    have h1 : remove e.1 t = t := remove_eq_self (assoc_eq_none_iff.2 hnd.1)
    have h2 : ¬ n.maxSize < ((e :: t).length : Int) := by
      rw [List.length_cons]; omega
    simp only [LruCache.Set, h1, if_neg h2]

theorem CloneTo_empty (c n : LruCache κ ν) (hn : n.lru = []) (hnd : (c.lru.map Prod.fst).Nodup)
    (hlen : (c.lru.length : Int) ≤ n.maxSize) : c.CloneTo n = { n with lru := c.lru } :=
  foldr_Set_empty n hn c.lru hnd hlen

end Cache

/-! ## Facts about the allocator -/

namespace Fakeip

open Cache

theorem wrap32_lt (v : Nat) : wrap32 v < 4294967296 := Nat.mod_lt _ (by decide)

theorem sub32_lt (a b : Nat) : sub32 a b < 4294967296 := wrap32_lt _

theorem add32_lt (a b : Nat) : add32 a b < 4294967296 := wrap32_lt _

theorem length_uintToIP (v : Nat) : (uintToIP v).length = 4 := rfl

theorem To4_of_length {a : IP} (h : a.length = 4) : To4 a = some a := by
  simp [To4, h]

theorem ipToUint_uintToIP {v : Nat} (h : v < 4294967296) : ipToUint (uintToIP v) = some v := by
  simp only [uintToIP, ipToUint, toByte, add32, wrap32, Option.some.injEq]
  omega

theorem ipToUint_of_length {a : IP} (h : a.length = 4) :
    ∃ n, ipToUint a = some n ∧ n < 4294967296 := by
  match a, h with
  | [b0, b1, b2, b3], _ => exact ⟨_, rfl, add32_lt _ _⟩

theorem To4_length {ip ip4 : IP} (h : To4 ip = some ip4) : ip4.length = 4 := by
  unfold To4 at h
  split at h
  · next h4 => cases h; exact h4
  · split at h
    · next h16 =>
      cases h
      simp only [List.length_take, List.length_drop]
      omega
    · cases h

theorem Pool.SameConfig.refl (p : Pool) : p.SameConfig p := ⟨rfl, rfl, rfl, rfl, rfl⟩

theorem Pool.SameConfig.trans {p q r : Pool} (h1 : p.SameConfig q) (h2 : q.SameConfig r) :
    p.SameConfig r :=
  ⟨h2.1.trans h1.1, h2.2.1.trans h1.2.1, h2.2.2.1.trans h1.2.2.1, h2.2.2.2.1.trans h1.2.2.2.1,
    h2.2.2.2.2.trans h1.2.2.2.2⟩

theorem total_bounds {ipnet : IPNet} (h : 0 < total ipnet) :
    2 ≤ (total ipnet % 4294967296).toNat ∧ (total ipnet % 4294967296).toNat ≤ 4294967294 := by
  unfold total at h ⊢
  by_cases hk : ipnet.bits - ipnet.ones < 64
  · rw [if_pos hk] at h ⊢
    generalize ipnet.bits - ipnet.ones = k at hk h ⊢
    interval_cases k <;> simp [wrapInt64] at h ⊢
  · rw [if_neg hk] at h
    simp [wrapInt64] at h

theorem New_ok {ipnet : IPNet} {size : Int} {p : Pool} (h : New ipnet size = some (.ok p)) :
    ∃ n, ipToUint ipnet.IP = some n ∧ 0 < total ipnet ∧
      p = { min := add32 n 2,
            max := sub32 (add32 (add32 n 2) ((total ipnet % 4294967296).toNat)) 1,
            gateway := sub32 (add32 n 2) 1, offset := 0, ipnet := ipnet,
            cache := NewLRUCache (size * 2) } := by
  unfold New at h
  split at h
  · cases h
  · next n hn =>
    simp only at h
    split at h
    · cases h
    · next ht =>
      refine ⟨n, hn, by omega, ?_⟩
      simp only [Option.some.injEq, Except.ok.injEq] at h
      exact h.symm

theorem New_modulus {ipnet : IPNet} {size : Int} {p : Pool} (h : New ipnet size = some (.ok p)) :
    sub32 p.max p.min = (total ipnet % 4294967296).toNat - 1 := by
  obtain ⟨n, -, ht, rfl⟩ := New_ok h
  have hb := total_bounds ht
  simp only [sub32, add32, wrap32]
  omega

theorem New_WF {ipnet : IPNet} {size : Int} {p : Pool} (h : New ipnet size = some (.ok p)) :
    p.WF := by
  have hm := New_modulus h
  obtain ⟨n, -, ht, hp⟩ := New_ok h
  have hb := total_bounds ht
  have ho : p.offset = 0 := by rw [hp]
  have hc : p.cache.lru = [] := by rw [hp]; rfl
  refine ⟨by omega, by omega, ?_, ?_, ?_⟩
  · intro e he; rw [hc] at he; cases he
  · rw [hc]; exact List.nodup_nil
  · rw [hc]; simp

theorem getLoop_some (p : Pool) (c : Nat) :
    ∀ fuel offset d, offset < sub32 p.max p.min → (offset + d) % sub32 p.max p.min = c →
      1 ≤ d → d ≤ fuel → ∃ o, getLoop p c fuel offset = some o ∧ o < sub32 p.max p.min := by
  intro fuel
  induction fuel with
  | zero => intro offset d _ _ h1 h2; omega
  | succ fuel ih =>
    intro offset d hoff hd h1 h2
    have hM := sub32_lt p.max p.min
    have hne : ¬ sub32 p.max p.min = 0 := by omega
    have hadd : add32 offset 1 = offset + 1 := by
      simp only [add32, wrap32]; omega
    have hlt : (offset + 1) % sub32 p.max p.min < sub32 p.max p.min :=
      Nat.mod_lt _ (by omega)
    simp only [getLoop, if_neg hne, hadd]
    by_cases hcur : (offset + 1) % sub32 p.max p.min = c
    · rw [if_pos hcur]; exact ⟨_, rfl, by omega⟩
    · rw [if_neg hcur]
      by_cases hex : (!p.cache.Exist (Key.u32 ((offset + 1) % sub32 p.max p.min))) = true
      · rw [if_pos hex]; exact ⟨_, rfl, hlt⟩
      · rw [if_neg hex]
        have hd1 : d ≠ 1 := by
          intro h; subst h; exact hcur hd
        refine ih _ (d - 1) hlt ?_ (by omega) (by omega)
        rw [Nat.mod_add_mod]
        have : offset + 1 + (d - 1) = offset + d := by omega
        rw [this]; exact hd

theorem getLoop_none_iter (p : Pool) (c : Nat) (hM : sub32 p.max p.min ≠ 0) :
    ∀ fuel offset, getLoop p c fuel offset = none → ∀ d, d < fuel →
      cursorAfter p d offset ≠ c ∧ p.cache.Exist (Key.u32 (cursorAfter p d offset)) = true := by
  intro fuel
  induction fuel with
  | zero => intro _ _ d hd; omega
  | succ fuel ih =>
    intro offset h d hd
    simp only [getLoop, if_neg hM] at h
    by_cases hcur : add32 offset 1 % sub32 p.max p.min = c
    · rw [if_pos hcur] at h; cases h
    · rw [if_neg hcur] at h
      by_cases hex : (!p.cache.Exist (Key.u32 (add32 offset 1 % sub32 p.max p.min))) = true
      · rw [if_pos hex] at h; cases h
      · rw [if_neg hex] at h
        cases d with
        | zero =>
          refine ⟨hcur, ?_⟩
          simpa using hex
        | succ d => exact ih _ h d (by omega)

theorem cursorAfter_eq (p : Pool) :
    ∀ d offset, offset < sub32 p.max p.min →
      cursorAfter p d offset = (offset + 1 + d) % sub32 p.max p.min := by
  have hlt := sub32_lt p.max p.min
  intro d
  induction d with
  | zero =>
    intro offset ho
    have hadd : add32 offset 1 = offset + 1 := by
      simp only [add32, wrap32]; omega
    simp only [cursorAfter, hadd, Nat.add_zero]
  | succ d ih =>
    intro offset ho
    have hadd : add32 offset 1 = offset + 1 := by
      simp only [add32, wrap32]; omega
    have h1 : (offset + 1) % sub32 p.max p.min < sub32 p.max p.min :=
      Nat.mod_lt _ (by omega)
    simp only [cursorAfter, hadd]
    rw [ih _ h1, Nat.add_assoc ((offset + 1) % sub32 p.max p.min), Nat.mod_add_mod]
    congr 1
    omega

theorem cursor_cover (M x r : Nat) (hx : x < M) (hr : r < M) :
    ∃ d, d < M ∧ (x + 1 + d) % M = r := by
  by_cases h : x + 1 ≤ r
  · exact ⟨r - (x + 1), by omega, by
      rw [show x + 1 + (r - (x + 1)) = r by omega]; exact Nat.mod_eq_of_lt hr⟩
  · exact ⟨r + M - (x + 1), by omega, by
      rw [show x + 1 + (r + M - (x + 1)) = r + M by omega, Nat.add_mod_right]
      exact Nat.mod_eq_of_lt hr⟩

theorem getLoop_blocked (p : Pool) (c : Nat) (hM : sub32 p.max p.min ≠ 0)
    (hall : ∀ r, r < sub32 p.max p.min → r ≠ c ∧ p.cache.Exist (Key.u32 r) = true) :
    ∀ fuel offset, getLoop p c fuel offset = none := by
  intro fuel
  induction fuel with
  | zero => intro _; rfl
  | succ fuel ih =>
    intro offset
    have h1 : add32 offset 1 % sub32 p.max p.min < sub32 p.max p.min :=
      Nat.mod_lt _ (by omega)
    obtain ⟨h2, h3⟩ := hall _ h1
    simp only [getLoop, if_neg hM, if_neg h2, h3, Bool.not_true, Bool.false_eq_true, if_false]
    exact ih _

theorem getLoop_mono (p : Pool) (c : Nat) :
    ∀ fuel offset o, getLoop p c fuel offset = some o → getLoop p c (fuel + 1) offset = some o := by
  intro fuel
  induction fuel with
  | zero => intro _ _ h; cases h
  | succ fuel ih =>
    intro offset o h
    rw [getLoop] at h ⊢
    by_cases hM : sub32 p.max p.min = 0
    · rw [if_pos hM] at h; cases h
    · rw [if_neg hM] at h ⊢
      simp only at h ⊢
      by_cases hcur : add32 offset 1 % sub32 p.max p.min = c
      · rw [if_pos hcur] at h ⊢; exact h
      · rw [if_neg hcur] at h ⊢
        by_cases hex : (!p.cache.Exist (Key.u32 (add32 offset 1 % sub32 p.max p.min))) = true
        · rw [if_pos hex] at h ⊢; exact h
        · rw [if_neg hex] at h ⊢
          exact ih _ _ h

/-- The bound on the iterations of the loop in the embedding of `Pool.get` loses nothing: a
larger bound gives the same result, so `none` stands for a loop that never ends (or for the
division by zero). -/
theorem getLoop_fuel (p : Pool) (c offset fuel : Nat) (h : sub32 p.max p.min + 1 ≤ fuel) :
    getLoop p c fuel offset = getLoop p c (sub32 p.max p.min + 1) offset := by
  cases hr : getLoop p c (sub32 p.max p.min + 1) offset with
  | some o =>
    obtain ⟨k, rfl⟩ := Nat.exists_eq_add_of_le h
    induction k with
    | zero => exact hr
    | succ k ih => exact getLoop_mono p c _ _ _ (ih (by omega))
  | none =>
    by_cases hM : sub32 p.max p.min = 0
    · cases fuel with
      | zero => rfl
      | succ fuel => simp only [getLoop, if_pos hM]
    · apply getLoop_blocked p c hM
      intro r hlt
      have hiter := getLoop_none_iter p c hM _ _ hr
      have h1 : add32 offset 1 % sub32 p.max p.min < sub32 p.max p.min :=
        Nat.mod_lt _ (by omega)
      obtain ⟨d, hd, hdr⟩ := cursor_cover _ _ r h1 hlt
      have h2 := hiter (d + 1) (by omega)
      have h3 : cursorAfter p (d + 1) offset = r := by
        rw [cursorAfter, cursorAfter_eq p d _ h1]; exact hdr
      rw [h3] at h2
      exact h2

theorem get_some {p : Pool} (hw : p.WF) (host : String) :
    ∃ o, o < sub32 p.max p.min ∧
      p.get host = some ({ p with offset := o, cache := p.cache.Set (Key.u32 o) (Val.str host) },
        uintToIP (sub32 (add32 p.min o) 1)) := by
  have hpos := hw.modulus_pos
  have hoff := hw.offset_lt
  obtain ⟨o, ho, hlt⟩ := getLoop_some p p.offset (sub32 p.max p.min + 1) p.offset
    (sub32 p.max p.min) hoff (by rw [Nat.add_mod_right]; exact Nat.mod_eq_of_lt hoff)
    (by omega) (by omega)
  exact ⟨o, hlt, by simp only [Pool.get, ho]⟩

theorem Lookup_hit {p : Pool} {h : String} {a : IP}
    (hs : assoc (Key.str h) p.cache.lru = some (Val.ip a)) (hl : a.length = 4) :
    ∃ n, ipToUint a = some n ∧ p.Lookup h = some
      ({ p with cache := ((p.cache.Get (Key.str h)).1.Get (Key.u32 (add32 (sub32 n p.min) 1))).1 },
        a) := by
  obtain ⟨n, hn, -⟩ := ipToUint_of_length hl
  refine ⟨n, hn, ?_⟩
  have hg : p.cache.Get (Key.str h)
      = ({ p.cache with lru := (Key.str h, Val.ip a) :: remove (Key.str h) p.cache.lru },
          some (Val.ip a)) := by
    simp only [LruCache.Get, hs]
  simp only [Pool.Lookup, hg, To4_of_length hl, Option.bind, hn]

theorem Lookup_miss {p : Pool} {h : String} (hs : assoc (Key.str h) p.cache.lru = none) :
    p.Lookup h = match p.get h with
      | none => none
      | some (p1, ip) =>
        some ({ p1 with cache := p1.cache.Set (Key.str h) (Val.ip ip) }, ip) := by
  have hg : p.cache.Get (Key.str h) = (p.cache, none) := by
    simp only [LruCache.Get, hs]
  simp only [Pool.Lookup, hg]

theorem perm_Get_Get {p : Pool} (hw : p.WF) (k1 k2 : Key) :
    ((p.cache.Get k1).1.Get k2).1.lru.Perm p.cache.lru :=
  (perm_Get k2 (nodup_Get k1 hw.nodup)).trans (perm_Get k1 hw.nodup)

theorem WF_Get_Get {p : Pool} (hw : p.WF) (k1 k2 : Key) :
    Pool.WF { p with cache := ((p.cache.Get k1).1.Get k2).1 } :=
  ⟨hw.modulus_pos, hw.offset_lt, fun e he => hw.typed e (mem_Get (mem_Get he)),
    nodup_Get _ (nodup_Get _ hw.nodup), by
      have h1 := (perm_Get_Get hw k1 k2).length_eq
      have h2 := hw.size_le
      simp only [Get_maxSize, h1]
      exact h2⟩

theorem SameConfig_Get_Get (p : Pool) (k1 k2 : Key) :
    p.SameConfig { p with cache := ((p.cache.Get k1).1.Get k2).1 } :=
  ⟨rfl, rfl, rfl, rfl, by simp only [Get_maxSize]⟩

theorem Lookup_total {p : Pool} (hw : p.WF) (h : String) :
    ∃ p1 a, p.Lookup h = some (p1, a) ∧ p1.WF ∧ p.SameConfig p1 ∧ a.length = 4 ∧
      (1 ≤ p.cache.maxSize → assoc (Key.str h) p1.cache.lru = some (Val.ip a)) := by
  cases hs : assoc (Key.str h) p.cache.lru with
  | some v =>
    have ht := hw.typed _ (mem_of_assoc hs)
    cases v with
    | str s => simp [Typed] at ht
    | ip a =>
      have hl : a.length = 4 := by simpa [Typed] using ht
      obtain ⟨n, -, hn⟩ := Lookup_hit hs hl
      refine ⟨_, a, hn, WF_Get_Get hw _ _, SameConfig_Get_Get p _ _, hl, fun _ => ?_⟩
      simp only [assoc_Get, hs]
  | none =>
    obtain ⟨o, ho, hg⟩ := get_some hw h
    rw [Lookup_miss hs, hg]
    refine ⟨_, _, rfl, ⟨hw.modulus_pos, ho, ?_, ?_, ?_⟩, ⟨rfl, rfl, rfl, rfl, ?_⟩,
      length_uintToIP _, fun h1 => ?_⟩
    · intro e he
      rcases mem_Set he with h1 | h1
      · rw [h1]; exact length_uintToIP _
      · rcases mem_Set h1.1 with h2 | h2
        · rw [h2]; trivial
        · exact hw.typed e h2.1
    · exact nodup_Set _ _ (nodup_Set _ _ hw.nodup)
    · exact length_Set_le _ _ (length_Set_le _ _ hw.size_le)
    · simp only [Set_maxSize]
    · exact assoc_Set_self _ _ (by simp only [Set_maxSize]; exact h1)

theorem LookBack_total {p : Pool} (hw : p.WF) (ip : IP) :
    ∃ p1 r, p.LookBack ip = some (p1, r) ∧ p1.WF ∧ p.SameConfig p1 ∧ p1.offset = p.offset ∧
      p1.cache.lru.Perm p.cache.lru := by
  unfold Pool.LookBack
  cases h4 : To4 ip with
  | none => exact ⟨p, _, rfl, hw, Pool.SameConfig.refl p, rfl, List.Perm.refl _⟩
  | some ip4 =>
    have hl := To4_length h4
    obtain ⟨n, hn, -⟩ := ipToUint_of_length hl
    simp only [To4_of_length hl, Option.bind, hn]
    cases hs : assoc (Key.u32 (add32 (sub32 n p.min) 1)) p.cache.lru with
    | none =>
      have hg : p.cache.Get (Key.u32 (add32 (sub32 n p.min) 1)) = (p.cache, none) := by
        simp only [LruCache.Get, hs]
      simp only [hg]
      exact ⟨p, _, rfl, hw, Pool.SameConfig.refl p, rfl, List.Perm.refl _⟩
    | some v =>
      have ht := hw.typed _ (mem_of_assoc hs)
      have hg : p.cache.Get (Key.u32 (add32 (sub32 n p.min) 1))
          = ((p.cache.Get (Key.u32 (add32 (sub32 n p.min) 1))).1, some v) := by
        simp only [LruCache.Get, hs]
      cases v with
      | ip a => simp [Typed] at ht
      | str host =>
        rw [hg]
        exact ⟨_, _, rfl, WF_Get_Get hw _ _, SameConfig_Get_Get p _ _, rfl, perm_Get_Get hw _ _⟩

theorem Exist_total (p : Pool) (ip : IP) : ∃ b, p.Exist ip = some b := by
  unfold Pool.Exist
  cases h4 : To4 ip with
  | none => exact ⟨_, rfl⟩
  | some ip4 =>
    have hl := To4_length h4
    obtain ⟨n, hn, -⟩ := ipToUint_of_length hl
    simp only [To4_of_length hl, Option.bind, hn]
    exact ⟨_, rfl⟩

theorem step_total {p : Pool} (hw : p.WF) (op : Op) :
    ∃ q, p.step op = some q ∧ q.WF ∧ p.SameConfig q := by
  cases op with
  | Lookup host =>
    obtain ⟨p1, a, h1, h2, h3, -⟩ := Lookup_total hw host
    exact ⟨p1, by simp only [Pool.step, h1, Option.map], h2, h3⟩
  | LookBack ip =>
    obtain ⟨p1, r, h1, h2, h3, -⟩ := LookBack_total hw ip
    exact ⟨p1, by simp only [Pool.step, h1, Option.map], h2, h3⟩
  | Exist ip =>
    obtain ⟨b, hb⟩ := Exist_total p ip
    exact ⟨p, by simp only [Pool.step, hb, Option.map], hw, Pool.SameConfig.refl p⟩

theorem run_total {p : Pool} (hw : p.WF) (ops : List Op) :
    ∃ q, p.run ops = some q ∧ q.WF ∧ p.SameConfig q := by
  induction ops generalizing p with
  | nil => exact ⟨p, rfl, hw, Pool.SameConfig.refl p⟩
  | cons op ops ih =>
    obtain ⟨q, h1, h2, h3⟩ := step_total hw op
    obtain ⟨r, h4, h5, h6⟩ := ih h2
    exact ⟨r, by simp only [Pool.run, h1, Option.bind, h4], h5, h3.trans h6⟩

theorem run_WF {p q : Pool} (hw : p.WF) {ops : List Op} (h : p.run ops = some q) :
    q.WF ∧ p.SameConfig q := by
  obtain ⟨r, h1, h2, h3⟩ := run_total hw ops
  rw [h] at h1
  cases h1
  exact ⟨h2, h3⟩

theorem total_ipv4 (ip : IP) (p : Nat) (hp : p ≤ 32) :
    total ⟨ip, p, 32⟩ = 2 ^ (32 - p) - 2 := by
  interval_cases p <;> simp [total, wrapInt64]

theorem total_ipv4_toNat (ip : IP) (p : Nat) (hp : p ≤ 30) :
    (total ⟨ip, p, 32⟩ % 4294967296).toNat = 2 ^ (32 - p) - 2 := by
  interval_cases p <;> simp [total, wrapInt64]

theorem New_ipv4 (ip : IP) (n p : Nat) (size : Int) (hn : ipToUint ip = some n) (hp : p ≤ 32) :
    New ⟨ip, p, 32⟩ size =
      if p ≤ 30 then
        some (.ok { min := add32 n 2, max := sub32 (add32 (add32 n 2) (2 ^ (32 - p) - 2)) 1,
                    gateway := sub32 (add32 n 2) 1, offset := 0, ipnet := ⟨ip, p, 32⟩,
                    cache := NewLRUCache (size * 2) })
      else some (.error "ipnet don't have valid ip") := by
  by_cases h30 : p ≤ 30
  · have h1 := total_ipv4 ip p hp
    have h2 := total_ipv4_toNat ip p h30
    have h3 : ¬ total ⟨ip, p, 32⟩ ≤ 0 := by
      rw [h1]; interval_cases p <;> simp
    simp only [New, hn, if_neg h3, if_pos h30, h2]
  · have h1 := total_ipv4 ip p hp
    have h3 : total ⟨ip, p, 32⟩ ≤ 0 := by
      rw [h1]; interval_cases p <;> simp
    simp only [New, hn, if_pos h3, if_neg h30]

theorem getLoop_fresh (p : Pool) (c fuel offset : Nat)
    (hM : offset + 1 < sub32 p.max p.min) (hne : offset + 1 ≠ c)
    (hex : p.cache.Exist (Key.u32 (offset + 1)) = false) :
    getLoop p c (fuel + 1) offset = some (offset + 1) := by
  have hlt := sub32_lt p.max p.min
  have hne0 : ¬ sub32 p.max p.min = 0 := by omega
  have hadd : add32 offset 1 = offset + 1 := by
    simp only [add32, wrap32]; omega
  simp only [getLoop, if_neg hne0, hadd, Nat.mod_eq_of_lt hM, if_neg hne, hex]
  rfl

theorem Lookup_fresh {p : Pool} {k : Nat} {S : List String} {h : String}
    (hk : p.offset = k) (hM : k + 1 < sub32 p.max p.min)
    (hkeys : ∀ e ∈ p.cache.lru, KeyBound k S e.1) (hS : h ∉ S) :
    ∃ p1, p.Lookup h = some (p1, uintToIP (sub32 (add32 p.min (k + 1)) 1)) ∧
      p1.offset = k + 1 ∧ p1.max = p.max ∧ p1.min = p.min ∧
      ∀ e ∈ p1.cache.lru, KeyBound (k + 1) (h :: S) e.1 := by
  have hs : assoc (Key.str h) p.cache.lru = none := by
    rw [assoc_eq_none_iff]
    intro hmem
    obtain ⟨e, he, hek⟩ := List.mem_map.1 hmem
    have := hkeys e he
    rw [hek] at this
    exact hS this
  have hex : p.cache.Exist (Key.u32 (k + 1)) = false := by
    have : assoc (Key.u32 (k + 1)) p.cache.lru = none := by
      rw [assoc_eq_none_iff]
      intro hmem
      obtain ⟨e, he, hek⟩ := List.mem_map.1 hmem
      have := hkeys e he
      rw [hek] at this
      simp only [KeyBound] at this
      omega
    simp only [LruCache.Exist, this, Option.isSome_none]
  subst hk
  have hloop := getLoop_fresh p p.offset (sub32 p.max p.min) p.offset hM (by omega) hex
  rw [Lookup_miss hs]
  simp only [Pool.get, hloop]
  refine ⟨_, rfl, rfl, rfl, rfl, ?_⟩
  intro e he
  rcases mem_Set he with h1 | h1
  · rw [h1]; exact List.mem_cons_self _ _
  · rcases mem_Set h1.1 with h2 | h2
    · rw [h2]; exact Nat.le_refl _
    · have := hkeys e h2.1
      cases hkey : e.1 with
      | str x => rw [hkey] at this; exact List.mem_cons_of_mem _ this
      | u32 o => rw [hkey] at this; exact Nat.le_succ_of_le this

theorem lookups_fresh (hosts : List String) :
    ∀ (p : Pool) (k : Nat) (S : List String), p.offset = k →
      k + hosts.length < sub32 p.max p.min → (∀ e ∈ p.cache.lru, KeyBound k S e.1) →
      hosts.Nodup → (∀ h ∈ hosts, h ∉ S) →
      ∃ p1, p.lookups hosts = some (p1, (List.range hosts.length).map
        (fun i => uintToIP (sub32 (add32 p.min (k + 1 + i)) 1))) := by
  induction hosts with
  | nil => intro p k S _ _ _ _ _; exact ⟨p, rfl⟩
  | cons h t ih =>
    intro p k S hk hM hkeys hnd hS
    rw [List.nodup_cons] at hnd
    rw [List.length_cons] at hM
    obtain ⟨p1, h1, ho, hmax, hmin, hkeys1⟩ :=
      Lookup_fresh hk (by omega) hkeys (hS h (List.mem_cons_self _ _))
    obtain ⟨p2, h2⟩ := ih p1 (k + 1) (h :: S) ho (by rw [hmax, hmin]; omega) hkeys1 hnd.2
      (fun x hx hmem => by
        rcases List.mem_cons.1 hmem with h3 | h3
        · rw [h3] at hx; exact hnd.1 hx
        · exact hS x (List.mem_cons_of_mem _ hx) h3)
    refine ⟨p2, ?_⟩
    have hf : ((fun i => uintToIP (sub32 (add32 p.min (k + 1 + i)) 1)) ∘ Nat.succ)
        = (fun i => uintToIP (sub32 (add32 p.min (k + 1 + 1 + i)) 1)) := by
      funext i
      show uintToIP (sub32 (add32 p.min (k + 1 + (i + 1))) 1) = _
      rw [show k + 1 + (i + 1) = k + 1 + 1 + i by omega]
    simp only [Pool.lookups, h1, h2, List.length_cons, List.range_succ_eq_map, List.map_cons,
      List.map_map, hmin, hf, Nat.add_zero]

theorem cidr_no_wrap (n ones : Nat) (hlt : n < 4294967296) (hones : ones ≤ 30)
    (hal : n % 2 ^ (32 - ones) = 0) : n + 2 ^ (32 - ones) ≤ 4294967296 ∧ 4 ≤ 2 ^ (32 - ones) := by
  interval_cases ones <;> simp at hal ⊢ <;> omega

theorem ipLt_uintToIP {v w : Nat} (hw : w < 4294967296) (h : v < w) :
    ipLt (uintToIP v) (uintToIP w) := by
  simp only [ipLt, ipToUint_uintToIP (Nat.lt_trans h hw), ipToUint_uintToIP hw]
  exact h

theorem ipLt_irrefl (a : IP) : ¬ ipLt a a := by
  unfold ipLt
  cases ipToUint a with
  | none => simp
  | some x => simp

theorem LookBack_hit {p : Pool} {a : IP} {n : Nat} {host : String}
    (hn : (To4 a).bind ipToUint = some n)
    (hs : assoc (Key.u32 (add32 (sub32 n p.min) 1)) p.cache.lru = some (Val.str host)) :
    ∃ p1, p.LookBack a = some (p1, host, true) := by
  cases h4 : To4 a with
  | none => rw [h4] at hn; cases hn
  | some ip4 =>
    rw [h4] at hn
    have h5 : (To4 ip4).bind ipToUint = some n := by
      rw [To4_of_length (To4_length h4)]; exact hn
    have hg : p.cache.Get (Key.u32 (add32 (sub32 n p.min) 1))
        = ((p.cache.Get (Key.u32 (add32 (sub32 n p.min) 1))).1, some (Val.str host)) := by
      simp only [LruCache.Get, hs]
    unfold Pool.LookBack
    simp only [h4, h5]
    rw [hg]
    exact ⟨_, rfl⟩

/-- On a fresh pool whose cursor range holds at least two offsets (every IPv4 block with a
prefix of at most 29 bits), the first Lookup returns min. -/
theorem first_lookup_min {ipnet : IPNet} {size : Int} {p0 : Pool}
    (hnew : New ipnet size = some (.ok p0)) (hM : 1 < sub32 p0.max p0.min) (host : String) :
    ∃ p1, p0.Lookup host = some (p1, uintToIP p0.min) := by
  obtain ⟨n, -, -, hp⟩ := New_ok hnew
  have hoff : p0.offset = 0 := by rw [hp]
  have hcache : p0.cache.lru = [] := by rw [hp]; rfl
  have hmin : p0.min < 4294967296 := by rw [hp]; exact add32_lt _ _
  obtain ⟨p1, h1, -⟩ := @Lookup_fresh p0 0 [] host hoff (by omega)
    (by intro e he; rw [hcache] at he; cases he) (List.not_mem_nil _)
  have h2 : sub32 (add32 p0.min (0 + 1)) 1 = p0.min := by
    simp only [sub32, add32, wrap32]; omega
  rw [h2] at h1
  exact ⟨p1, h1⟩

/-- A Lookup that allocates (the host has no forward entry) on a pool of capacity at least 2
returns an address that LookBack resolves to the host. -/
theorem roundtrip_after_miss {p : Pool} (hw : p.WF) (hcap : 2 ≤ p.cache.maxSize) {host : String}
    (hs : assoc (Key.str host) p.cache.lru = none) :
    ∃ p1 a p2, p.Lookup host = some (p1, a) ∧ p1.LookBack a = some (p2, host, true) := by
  obtain ⟨o, ho, hg⟩ := get_some hw host
  have hlt := sub32_lt p.max p.min
  have hl := Lookup_miss hs
  rw [hg] at hl
  simp only at hl
  have hn : (To4 (uintToIP (sub32 (add32 p.min o) 1))).bind ipToUint
      = some (sub32 (add32 p.min o) 1) := by
    rw [To4_of_length (length_uintToIP _)]
    exact ipToUint_uintToIP (sub32_lt _ _)
  have hoff : add32 (sub32 (sub32 (add32 p.min o) 1) p.min) 1 = o := by
    simp only [sub32, add32, wrap32]; omega
  have hrev : assoc (Key.u32 (add32 (sub32 (sub32 (add32 p.min o) 1) p.min) 1))
      ((p.cache.Set (Key.u32 o) (Val.str host)).Set (Key.str host)
        (Val.ip (uintToIP (sub32 (add32 p.min o) 1)))).lru = some (Val.str host) := by
    rw [hoff]
    exact assoc_Set_Set _ _ _ (by simp) hcap
  obtain ⟨p2, h2⟩ := @LookBack_hit
    { p with
      offset := o
      cache := ((p.cache.Set (Key.u32 o) (Val.str host)).Set (Key.str host)
        (Val.ip (uintToIP (sub32 (add32 p.min o) 1)))) } _ _ host hn hrev
  exact ⟨_, _, p2, hl, h2⟩

theorem getLoop_result (p : Pool) (c : Nat) :
    ∀ fuel offset o, getLoop p c fuel offset = some o →
      o < sub32 p.max p.min ∧ (o = c ∨ p.cache.Exist (Key.u32 o) = false) := by
  intro fuel
  induction fuel with
  | zero => intro _ _ h; cases h
  | succ fuel ih =>
    intro offset o h
    rw [getLoop] at h
    by_cases hM : sub32 p.max p.min = 0
    · rw [if_pos hM] at h; cases h
    · rw [if_neg hM] at h
      simp only at h
      have hlt : add32 offset 1 % sub32 p.max p.min < sub32 p.max p.min :=
        Nat.mod_lt _ (by omega)
      by_cases hcur : add32 offset 1 % sub32 p.max p.min = c
      · rw [if_pos hcur] at h
        cases h
        exact ⟨hlt, Or.inl hcur⟩
      · rw [if_neg hcur] at h
        by_cases hex : (!p.cache.Exist (Key.u32 (add32 offset 1 % sub32 p.max p.min))) = true
        · rw [if_pos hex] at h
          cases h
          exact ⟨hlt, Or.inr (by simpa using hex)⟩
        · rw [if_neg hex] at h
          exact ih _ _ h

theorem getLoop_within_range {p : Pool} (hw : p.WF) :
    ∃ o, getLoop p p.offset (sub32 p.max p.min) p.offset = some o ∧ o < sub32 p.max p.min :=
  getLoop_some p p.offset (sub32 p.max p.min) p.offset (sub32 p.max p.min) hw.offset_lt
    (by rw [Nat.add_mod_right]; exact Nat.mod_eq_of_lt hw.offset_lt) hw.modulus_pos
    (Nat.le_refl _)

theorem get_eq {p : Pool} {host : String} {o : Nat}
    (h : getLoop p p.offset (sub32 p.max p.min + 1) p.offset = some o) :
    p.get host = some ({ p with offset := o, cache := p.cache.Set (Key.u32 o) (Val.str host) },
      uintToIP (sub32 (add32 p.min o) 1)) := by
  simp only [Pool.get, h]

/-- On a pool whose cursor range is full, the loop of get comes back to the cursor it started
from. -/
theorem getLoop_full {p : Pool} (hw : p.WF)
    (hfull : ∀ r, r < sub32 p.max p.min → p.cache.Exist (Key.u32 r) = true) :
    getLoop p p.offset (sub32 p.max p.min + 1) p.offset = some p.offset := by
  obtain ⟨o, ho, hlt⟩ := getLoop_some p p.offset (sub32 p.max p.min + 1) p.offset
    (sub32 p.max p.min) hw.offset_lt
    (by rw [Nat.add_mod_right]; exact Nat.mod_eq_of_lt hw.offset_lt) hw.modulus_pos (by omega)
  rcases (getLoop_result p p.offset _ _ o ho).2 with h | h
  · rw [ho, h]
  · rw [hfull o hlt] at h; cases h

/-- On a pool whose cursor range is full, Lookup of a host without forward entry leaves the
cursor where it is and stores the host at that offset. -/
theorem Lookup_full {p : Pool} (hw : p.WF) {host : String}
    (hfull : ∀ r, r < sub32 p.max p.min → p.cache.Exist (Key.u32 r) = true)
    (hs : assoc (Key.str host) p.cache.lru = none) :
    p.Lookup host = some
      ({ p with
          offset := p.offset
          cache := (p.cache.Set (Key.u32 p.offset) (Val.str host)).Set (Key.str host)
            (Val.ip (uintToIP (sub32 (add32 p.min p.offset) 1))) },
        uintToIP (sub32 (add32 p.min p.offset) 1)) := by
  rw [Lookup_miss hs, get_eq (getLoop_full hw hfull)]

theorem Exist_eq {p : Pool} {ip ip4 : IP} {n : Nat} (h4 : To4 ip = some ip4)
    (hn : ipToUint ip4 = some n) :
    p.Exist ip = some (p.cache.Exist (Key.u32 (add32 (sub32 n p.min) 1))) ∧
      p.reverse ip = assoc (Key.u32 (add32 (sub32 n p.min) 1)) p.cache.lru := by
  have h5 : (To4 ip4).bind ipToUint = some n := by
    rw [To4_of_length (To4_length h4)]; exact hn
  have h6 : (To4 ip).bind ipToUint = some n := by
    rw [h4]; exact hn
  constructor
  · simp only [Pool.Exist, h4, h5]
  · simp only [Pool.reverse, h6]

/-! ### Couples of entries -/

theorem remove_cons_ne {key : Key} {e : Key × Val} {t : List (Key × Val)} (h : e.1 ≠ key) :
    remove key (e :: t) = e :: remove key t := by
  simp only [remove, if_neg h]

theorem remove_cons_eq {key : Key} {e : Key × Val} {t : List (Key × Val)} (h : e.1 = key) :
    remove key (e :: t) = remove key t := by
  simp only [remove, if_pos h]

theorem remove_pair_ne {k key : Key} {x : Val} {t : List (Key × Val)} (h : k ≠ key) :
    remove key ((k, x) :: t) = (k, x) :: remove key t :=
  remove_cons_ne h

theorem remove_pair_eq {key : Key} {x : Val} {t : List (Key × Val)} :
    remove key ((key, x) :: t) = remove key t :=
  remove_cons_eq rfl

theorem remove_comm (k1 k2 : Key) (l : List (Key × Val)) :
    remove k1 (remove k2 l) = remove k2 (remove k1 l) := by
  simp only [remove_eq_filter, List.filter_filter]
  congr 1
  funext e
  exact Bool.and_comm _ _

theorem assoc_of_mem {l : List (Key × Val)} (hn : (l.map Prod.fst).Nodup) {k : Key} {x : Val}
    (h : (k, x) ∈ l) : assoc k l = some x := by
  induction l with
  | nil => cases h
  | cons e t ih =>
    rw [List.map_cons, List.nodup_cons] at hn
    rcases List.mem_cons.1 h with h1 | h1
    · subst h1; simp [assoc]
    · have hne : e.1 ≠ k := by
        intro heq
        exact hn.1 (List.mem_map.2 ⟨(k, x), h1, heq.symm⟩)
      simp only [assoc, if_neg hne]
      exact ih hn.2 h1

theorem not_mem_keys_remove_eq {l : List (Key × Val)} {k : Key} (h : k ∉ l.map Prod.fst) :
    remove k l = l :=
  remove_eq_self (assoc_eq_none_iff.2 h)

theorem offsetOf_inj {m v w : Nat} (hv : v < 4294967296) (hw : w < 4294967296)
    (h : offsetOf m v = offsetOf m w) : v = w := by
  simp only [offsetOf, add32, sub32, wrap32] at h
  omega

theorem uintToIP_inj {v w : Nat} (hv : v < 4294967296) (hw : w < 4294967296)
    (h : uintToIP v = uintToIP w) : v = w := by
  have h1 := ipToUint_uintToIP hv
  rw [h, ipToUint_uintToIP hw] at h1
  cases h1
  rfl

theorem uintToIP_ipToUint {a : IP} {n : Nat} (hl : a.length = 4) (hn : ipToUint a = some n) :
    uintToIP n = a := by
  match a, hl with
  | [b0, b1, b2, b3], _ =>
    simp only [ipToUint, Option.some.injEq] at hn
    subst hn
    have h0 := b0.isLt
    have h1 := b1.isLt
    have h2 := b2.isLt
    have h3 := b3.isLt
    simp only [uintToIP, toByte, add32, wrap32, List.cons.injEq, and_true]
    refine ⟨Fin.ext ?_, Fin.ext ?_, Fin.ext ?_, Fin.ext ?_⟩ <;> simp only <;> omega

theorem Paired.mem {m : Nat} {l : List (Key × Val)} (hp : Paired m l) :
    ∀ e ∈ l, ∃ h v, v < 4294967296 ∧
      (e = (Key.str h, Val.ip (uintToIP v)) ∨ e = (Key.u32 (offsetOf m v), Val.str h)) ∧
      (Key.str h, Val.ip (uintToIP v)) ∈ l ∧ (Key.u32 (offsetOf m v), Val.str h) ∈ l := by
  induction hp with
  | nil => intro e he; cases he
  | fwdRev h v l hv _ ih =>
    intro e he
    rcases List.mem_cons.1 he with h1 | h1
    · exact ⟨h, v, hv, Or.inl h1, by simp, by simp⟩
    · rcases List.mem_cons.1 h1 with h2 | h2
      · exact ⟨h, v, hv, Or.inr h2, by simp, by simp⟩
      · obtain ⟨h', v', hv', ho, hf, hr⟩ := ih e h2
        exact ⟨h', v', hv', ho, by simp [hf], by simp [hr]⟩
  | revFwd h v l hv _ ih =>
    intro e he
    rcases List.mem_cons.1 he with h1 | h1
    · exact ⟨h, v, hv, Or.inr h1, by simp, by simp⟩
    · rcases List.mem_cons.1 h1 with h2 | h2
      · exact ⟨h, v, hv, Or.inl h2, by simp, by simp⟩
      · obtain ⟨h', v', hv', ho, hf, hr⟩ := ih e h2
        exact ⟨h', v', hv', ho, by simp [hf], by simp [hr]⟩

theorem Paired.mem_fwd {m : Nat} {l : List (Key × Val)} (hp : Paired m l) {h : String} {x : Val}
    (he : (Key.str h, x) ∈ l) :
    ∃ v, v < 4294967296 ∧ x = Val.ip (uintToIP v) ∧ (Key.u32 (offsetOf m v), Val.str h) ∈ l := by
  obtain ⟨h', v, hv, ho, -, hr⟩ := hp.mem _ he
  rcases ho with h1 | h1
  · simp only [Prod.mk.injEq, Key.str.injEq] at h1
    obtain ⟨h2, h3⟩ := h1
    subst h2
    exact ⟨v, hv, h3, hr⟩
  · simp at h1

theorem Paired.mem_rev {m : Nat} {l : List (Key × Val)} (hp : Paired m l) {o : Nat} {x : Val}
    (he : (Key.u32 o, x) ∈ l) :
    ∃ h v, v < 4294967296 ∧ o = offsetOf m v ∧ x = Val.str h ∧
      (Key.str h, Val.ip (uintToIP v)) ∈ l := by
  obtain ⟨h, v, hv, ho, hf, -⟩ := hp.mem _ he
  rcases ho with h1 | h1
  · simp at h1
  · simp only [Prod.mk.injEq, Key.u32.injEq] at h1
    exact ⟨h, v, hv, h1.1, h1.2, hf⟩

theorem Paired.length_offsets {m : Nat} {l : List (Key × Val)} (hp : Paired m l) :
    l.length = 2 * (offsets l).length := by
  induction hp with
  | nil => rfl
  | fwdRev h v l _ _ ih =>
    simp only [offsets, List.filterMap_cons, List.length_cons] at ih ⊢
    omega
  | revFwd h v l _ _ ih =>
    simp only [offsets, List.filterMap_cons, List.length_cons] at ih ⊢
    omega

theorem Paired.dropLast_dropLast {m : Nat} {l : List (Key × Val)} (hp : Paired m l) :
    Paired m l.dropLast.dropLast := by
  induction hp with
  | nil => exact Paired.nil
  | fwdRev h v l hv hl ih =>
    cases hl with
    | nil => exact Paired.nil
    | fwdRev h' v' l' hv' hl' =>
      simp only [List.dropLast_cons₂] at ih ⊢
      exact Paired.fwdRev h v _ hv ih
    | revFwd h' v' l' hv' hl' =>
      simp only [List.dropLast_cons₂] at ih ⊢
      exact Paired.fwdRev h v _ hv ih
  | revFwd h v l hv hl ih =>
    cases hl with
    | nil => exact Paired.nil
    | fwdRev h' v' l' hv' hl' =>
      simp only [List.dropLast_cons₂] at ih ⊢
      exact Paired.revFwd h v _ hv ih
    | revFwd h' v' l' hv' hl' =>
      simp only [List.dropLast_cons₂] at ih ⊢
      exact Paired.revFwd h v _ hv ih

theorem Paired.remove_pair {m : Nat} {l : List (Key × Val)} (hp : Paired m l)
    (hn : (l.map Prod.fst).Nodup) {h : String} {v : Nat} (hv : v < 4294967296)
    (he : (Key.str h, Val.ip (uintToIP v)) ∈ l) :
    Paired m (remove (Key.u32 (offsetOf m v)) (remove (Key.str h) l)) := by
  induction hp with
  | nil => cases he
  | fwdRev h' v' l' hv' hl' ih =>
    simp only [List.map_cons, List.nodup_cons, List.mem_cons, not_or] at hn
    obtain ⟨⟨hn1, hn2⟩, hn3, hn4⟩ := hn
    by_cases hh : h' = h
    · subst hh
      have hvv : v = v' := by
        rcases List.mem_cons.1 he with h1 | h1
        · simp only [Prod.mk.injEq, Val.ip.injEq, true_and] at h1
          exact uintToIP_inj hv hv' h1
        · rcases List.mem_cons.1 h1 with h2 | h2
          · simp at h2
          · exact absurd (List.mem_map.2 ⟨_, h2, rfl⟩) hn2
      subst hvv
      have hk : Key.u32 (offsetOf m v) ≠ Key.str h' := by simp
      simp only [remove_pair_eq, remove_pair_ne hk, not_mem_keys_remove_eq hn2,
        not_mem_keys_remove_eq hn3]
      exact hl'
    · have hmem : (Key.str h, Val.ip (uintToIP v)) ∈ l' := by
        rcases List.mem_cons.1 he with h1 | h1
        · simp only [Prod.mk.injEq, Key.str.injEq] at h1
          exact absurd h1.1.symm hh
        · rcases List.mem_cons.1 h1 with h2 | h2
          · simp at h2
          · exact h2
      have hoff : offsetOf m v' ≠ offsetOf m v := by
        intro heq
        have hvv := offsetOf_inj hv' hv heq
        subst hvv
        obtain ⟨w, hw, hx, hr⟩ := hl'.mem_fwd hmem
        simp only [Val.ip.injEq] at hx
        have := uintToIP_inj hv' hw hx
        subst this
        exact hn3 (List.mem_map.2 ⟨_, hr, rfl⟩)
      have hk1 : Key.str h' ≠ Key.str h := by simpa using hh
      have hk2 : Key.u32 (offsetOf m v') ≠ Key.str h := by simp
      have hk3 : Key.str h' ≠ Key.u32 (offsetOf m v) := by simp
      have hk4 : Key.u32 (offsetOf m v') ≠ Key.u32 (offsetOf m v) := by simpa using hoff
      simp only [remove_pair_ne hk1, remove_pair_ne hk2, remove_pair_ne hk3, remove_pair_ne hk4]
      exact Paired.fwdRev h' v' _ hv' (ih hn4 hmem)
  | revFwd h' v' l' hv' hl' ih =>
    simp only [List.map_cons, List.nodup_cons, List.mem_cons, not_or] at hn
    obtain ⟨⟨hn1, hn2⟩, hn3, hn4⟩ := hn
    by_cases hh : h' = h
    · subst hh
      have hvv : v = v' := by
        rcases List.mem_cons.1 he with h1 | h1
        · simp at h1
        · rcases List.mem_cons.1 h1 with h2 | h2
          · simp only [Prod.mk.injEq, Val.ip.injEq, true_and] at h2
            exact uintToIP_inj hv hv' h2
          · exact absurd (List.mem_map.2 ⟨_, h2, rfl⟩) hn3
      subst hvv
      have hk : Key.u32 (offsetOf m v) ≠ Key.str h' := by simp
      simp only [remove_pair_eq, remove_pair_ne hk, not_mem_keys_remove_eq hn3,
        not_mem_keys_remove_eq hn2]
      exact hl'
    · have hmem : (Key.str h, Val.ip (uintToIP v)) ∈ l' := by
        rcases List.mem_cons.1 he with h1 | h1
        · simp at h1
        · rcases List.mem_cons.1 h1 with h2 | h2
          · simp only [Prod.mk.injEq, Key.str.injEq] at h2
            exact absurd h2.1.symm hh
          · exact h2
      have hoff : offsetOf m v' ≠ offsetOf m v := by
        intro heq
        have hvv := offsetOf_inj hv' hv heq
        subst hvv
        obtain ⟨w, hw, hx, hr⟩ := hl'.mem_fwd hmem
        simp only [Val.ip.injEq] at hx
        have := uintToIP_inj hv' hw hx
        subst this
        exact hn2 (List.mem_map.2 ⟨_, hr, rfl⟩)
      have hk1 : Key.str h' ≠ Key.str h := by simpa using hh
      have hk2 : Key.u32 (offsetOf m v') ≠ Key.str h := by simp
      have hk3 : Key.str h' ≠ Key.u32 (offsetOf m v) := by simp
      have hk4 : Key.u32 (offsetOf m v') ≠ Key.u32 (offsetOf m v) := by simpa using hoff
      simp only [remove_pair_ne hk1, remove_pair_ne hk2, remove_pair_ne hk3, remove_pair_ne hk4]
      exact Paired.revFwd h' v' _ hv' (ih hn4 hmem)

theorem Get_lru_hit {c : LruCache Key Val} {key : Key} {x : Val}
    (h : assoc key c.lru = some x) :
    (c.Get key).1.lru = (key, x) :: remove key c.lru ∧ (c.Get key).1.maxSize = c.maxSize := by
  simp only [LruCache.Get, h, and_self]

/-- Promotion of a forward entry and then of the reverse entry of its address, as Lookup does
on a hit, keeps the couples. -/
theorem Paired.promote_fwd {m : Nat} {c : LruCache Key Val} (hp : Paired m c.lru)
    (hn : (c.lru.map Prod.fst).Nodup) {h : String} {a : IP} {n : Nat}
    (hs : assoc (Key.str h) c.lru = some (Val.ip a)) (ha : ipToUint a = some n) :
    Paired m ((c.Get (Key.str h)).1.Get (Key.u32 (offsetOf m n))).1.lru := by
  obtain ⟨v, hv, hx, hr⟩ := hp.mem_fwd (mem_of_assoc hs)
  simp only [Val.ip.injEq] at hx
  subst hx
  have hvn : v = n := by
    rw [ipToUint_uintToIP hv] at ha
    cases ha
    rfl
  subst hvn
  obtain ⟨h1, -⟩ := Get_lru_hit hs
  have h2 : assoc (Key.u32 (offsetOf m v)) (c.Get (Key.str h)).1.lru = some (Val.str h) := by
    rw [assoc_Get]; exact assoc_of_mem hn hr
  obtain ⟨h3, -⟩ := Get_lru_hit h2
  have hk : Key.str h ≠ Key.u32 (offsetOf m v) := by simp
  rw [h3, h1, remove_pair_ne hk]
  exact Paired.revFwd h v _ hv (hp.remove_pair hn hv (mem_of_assoc hs))

/-- Promotion of a reverse entry and then of the forward entry of its host, as LookBack does
on a hit, keeps the couples. -/
theorem Paired.promote_rev {m : Nat} {c : LruCache Key Val} (hp : Paired m c.lru)
    (hn : (c.lru.map Prod.fst).Nodup) {o : Nat} {host : String}
    (hs : assoc (Key.u32 o) c.lru = some (Val.str host)) :
    Paired m ((c.Get (Key.u32 o)).1.Get (Key.str host)).1.lru := by
  obtain ⟨h, v, hv, ho, hx, hf⟩ := hp.mem_rev (mem_of_assoc hs)
  simp only [Val.str.injEq] at hx
  subst hx
  subst ho
  obtain ⟨h1, -⟩ := Get_lru_hit hs
  have h2 : assoc (Key.str host) (c.Get (Key.u32 (offsetOf m v))).1.lru
      = some (Val.ip (uintToIP v)) := by
    rw [assoc_Get]; exact assoc_of_mem hn hf
  obtain ⟨h3, -⟩ := Get_lru_hit h2
  have hk : Key.u32 (offsetOf m v) ≠ Key.str host := by simp
  rw [h3, h1, remove_pair_ne hk, remove_comm]
  exact Paired.fwdRev host v _ hv (hp.remove_pair hn hv hf)

/-- Two Sets of a new couple, as Lookup does after an allocation, keep the couples when the
capacity is even and at least 2. -/
theorem Paired.set_couple {m : Nat} {c : LruCache Key Val} (hp : Paired m c.lru)
    {s : Int} (hcap : c.maxSize = 2 * s) (hs1 : 1 ≤ s) (hlen : c.lru.length ≤ c.maxSize.toNat)
    {h : String} {v : Nat} (hv : v < 4294967296)
    (hf : assoc (Key.str h) c.lru = none) (hr : assoc (Key.u32 (offsetOf m v)) c.lru = none) :
    Paired m ((c.Set (Key.u32 (offsetOf m v)) (Val.str h)).Set (Key.str h)
      (Val.ip (uintToIP v))).lru := by
  have heven := hp.length_offsets
  obtain ⟨cap, l⟩ := c
  simp only at hp hcap hlen hf hr heven
  subst hcap
  by_cases hfull : l.length + 2 ≤ (2 * s).toNat
  · have h1 : ¬ (2 * s < ((((Key.u32 (offsetOf m v), Val.str h) :: l).length : Nat) : Int)) := by
      rw [List.length_cons]; omega
    have h2 : ¬ (2 * s < ((((Key.str h, Val.ip (uintToIP v)) ::
        (Key.u32 (offsetOf m v), Val.str h) :: l).length : Nat) : Int)) := by
      rw [List.length_cons, List.length_cons]; omega
    have hk : Key.u32 (offsetOf m v) ≠ Key.str h := by simp
    simp only [LruCache.Set, remove_eq_self hr, if_neg h1, remove_pair_ne hk,
      remove_eq_self hf, if_neg h2]
    exact Paired.fwdRev h v l hv hp
  · have hl : l.length = (2 * s).toNat := by omega
    have hne : l ≠ [] := by
      intro h0; rw [h0] at hl; simp at hl; omega
    have hne2 : l.dropLast ≠ [] := by
      intro h0
      have := congrArg List.length h0
      rw [List.length_dropLast] at this
      simp at this
      omega
    have hf2 : assoc (Key.str h) l.dropLast = none := by
      rw [assoc_eq_none_iff] at hf ⊢
      intro hmem
      exact hf ((List.dropLast_sublist l).map Prod.fst |>.subset hmem)
    have h1 : (2 * s < ((((Key.u32 (offsetOf m v), Val.str h) :: l).length : Nat) : Int)) := by
      rw [List.length_cons]; omega
    have h2 : (2 * s < ((((Key.str h, Val.ip (uintToIP v)) ::
        (Key.u32 (offsetOf m v), Val.str h) :: l.dropLast).length : Nat) : Int)) := by
      rw [List.length_cons, List.length_cons, List.length_dropLast]; omega
    have hk : Key.u32 (offsetOf m v) ≠ Key.str h := by simp
    simp only [LruCache.Set, remove_eq_self hr, if_pos h1, List.dropLast_cons_of_ne_nil hne,
      remove_pair_ne hk, remove_eq_self hf2, if_pos h2, List.dropLast_cons_of_ne_nil hne2,
      List.dropLast_cons_of_ne_nil (List.cons_ne_nil _ _)]
    exact Paired.fwdRev h v _ hv hp.dropLast_dropLast

theorem getLoop_some_iter (p : Pool) (c : Nat) (hM : sub32 p.max p.min ≠ 0) :
    ∀ fuel offset o, getLoop p c fuel offset = some o →
      ∃ d, d < fuel ∧ cursorAfter p d offset = o ∧
        ∀ d', d' < d → cursorAfter p d' offset ≠ c ∧
          p.cache.Exist (Key.u32 (cursorAfter p d' offset)) = true := by
  intro fuel
  induction fuel with
  | zero => intro _ _ h; cases h
  | succ fuel ih =>
    intro offset o h
    simp only [getLoop, if_neg hM] at h
    by_cases hcur : add32 offset 1 % sub32 p.max p.min = c
    · rw [if_pos hcur] at h
      cases h
      exact ⟨0, by omega, rfl, fun d' hd' => absurd hd' (Nat.not_lt_zero _)⟩
    · rw [if_neg hcur] at h
      by_cases hex : (!p.cache.Exist (Key.u32 (add32 offset 1 % sub32 p.max p.min))) = true
      · rw [if_pos hex] at h
        cases h
        exact ⟨0, by omega, rfl, fun d' hd' => absurd hd' (Nat.not_lt_zero _)⟩
      · rw [if_neg hex] at h
        obtain ⟨d, hd, hc, hall⟩ := ih _ _ h
        refine ⟨d + 1, by omega, hc, ?_⟩
        intro d' hd'
        cases d' with
        | zero => exact ⟨hcur, by simpa using hex⟩
        | succ k => exact hall k (by omega)

theorem cursor_not_back (M c d : Nat) (hc : c < M) (hd : d + 1 < M) : (c + 1 + d) % M ≠ c := by
  by_cases h : c + 1 + d < M
  · rw [Nat.mod_eq_of_lt h]; omega
  · rw [Nat.mod_eq_sub_mod (by omega), Nat.mod_eq_of_lt (by omega)]
    omega

/-- When some offset of the cursor range has no reverse entry, the loop of get ends on an
offset without reverse entry. -/
theorem getLoop_free {p : Pool} (hw : p.WF) {r : Nat} (hr : r < sub32 p.max p.min)
    (hfree : p.cache.Exist (Key.u32 r) = false) {fuel o : Nat}
    (h : getLoop p p.offset fuel p.offset = some o) :
    p.cache.Exist (Key.u32 o) = false := by
  have hM : sub32 p.max p.min ≠ 0 := by have := hw.modulus_pos; omega
  have hc := hw.offset_lt
  rcases (getLoop_result p p.offset _ _ o h).2 with hoc | hoc
  · subst hoc
    by_contra hocc
    have hocc : p.cache.Exist (Key.u32 p.offset) = true := by simpa using hocc
    obtain ⟨d, -, hd, hall⟩ := getLoop_some_iter p p.offset hM _ _ _ h
    rw [cursorAfter_eq p d _ hc] at hd
    have hdM : sub32 p.max p.min ≤ d + 1 := by
      by_contra hlt
      exact cursor_not_back _ _ d hc (by omega) hd
    have hrc : r ≠ p.offset := by
      intro heq; rw [heq, hocc] at hfree; cases hfree
    obtain ⟨d', hd', hdr⟩ := cursor_cover _ p.offset r hc hr
    have hd'' : d' + 1 < sub32 p.max p.min := by
      by_contra hge
      have : d' = sub32 p.max p.min - 1 := by omega
      rw [this, show p.offset + 1 + (sub32 p.max p.min - 1) = p.offset + sub32 p.max p.min by
        omega, Nat.add_mod_right, Nat.mod_eq_of_lt hc] at hdr
      exact hrc hdr.symm
    have := (hall d' (by omega)).2
    rw [cursorAfter_eq p d' _ hc, hdr, hfree] at this
    cases this
  · exact hoc

theorem mem_offsets {l : List (Key × Val)} {o : Nat} :
    o ∈ offsets l ↔ Key.u32 o ∈ l.map Prod.fst := by
  simp only [offsets, List.mem_filterMap, List.mem_map]
  constructor
  · rintro ⟨e, he, h⟩
    refine ⟨e, he, ?_⟩
    cases hk : e.1 with
    | str s => rw [hk] at h; cases h
    | u32 n => rw [hk] at h; simp only [Option.some.injEq] at h; rw [h]
  · rintro ⟨e, he, h⟩
    exact ⟨e, he, by rw [h]⟩

/-- A store in couples that holds fewer entries than twice the length of the cursor range
leaves an offset of the range without reverse entry. -/
theorem exists_free_offset {m M : Nat} {c : LruCache Key Val} (hp : Paired m c.lru)
    (hlen : c.lru.length < 2 * M) : ∃ r, r < M ∧ c.Exist (Key.u32 r) = false := by
  by_contra hno
  have hall : ∀ r, r < M → r ∈ offsets c.lru := by
    intro r hr
    rw [mem_offsets]
    by_contra hnot
    exact hno ⟨r, hr, by simp only [LruCache.Exist, assoc_eq_none_iff.2 hnot, Option.isSome_none]⟩
  have hsub : List.range M ⊆ offsets c.lru := by
    intro r hr
    exact hall r (List.mem_range.1 hr)
  have hle := (List.subperm_of_subset (List.nodup_range M) hsub).length_le
  rw [List.length_range] at hle
  have := hp.length_offsets
  omega

theorem LookBack_cases (p : Pool) (ip : IP) (ht : ∀ e ∈ p.cache.lru, Typed e) :
    p.LookBack ip = some (p, "", false) ∨
      ∃ o host, assoc (Key.u32 o) p.cache.lru = some (Val.str host) ∧
        p.LookBack ip = some
          ({ p with cache := ((p.cache.Get (Key.u32 o)).1.Get (Key.str host)).1 }, host, true) := by
  unfold Pool.LookBack
  cases h4 : To4 ip with
  | none => exact Or.inl rfl
  | some ip4 =>
    have hl := To4_length h4
    obtain ⟨n, hn, -⟩ := ipToUint_of_length hl
    simp only [To4_of_length hl, Option.bind, hn]
    cases hs : assoc (Key.u32 (add32 (sub32 n p.min) 1)) p.cache.lru with
    | none =>
      have hg : p.cache.Get (Key.u32 (add32 (sub32 n p.min) 1)) = (p.cache, none) := by
        simp only [LruCache.Get, hs]
      simp only [hg]
      exact Or.inl trivial
    | some x =>
      have htx := ht _ (mem_of_assoc hs)
      have hg : p.cache.Get (Key.u32 (add32 (sub32 n p.min) 1))
          = ((p.cache.Get (Key.u32 (add32 (sub32 n p.min) 1))).1, some x) := by
        simp only [LruCache.Get, hs]
      cases x with
      | ip a => simp [Typed] at htx
      | str host =>
        rw [hg]
        exact Or.inr ⟨_, host, hs, rfl⟩

theorem Paired.length_hosts {m : Nat} {l : List (Key × Val)} (hp : Paired m l) :
    l.length = 2 * (l.filterMap (fun e => match e.1 with
      | Key.str h => some h
      | Key.u32 _ => none)).length := by
  induction hp with
  | nil => rfl
  | fwdRev h v l _ _ ih =>
    simp only [List.filterMap_cons, List.length_cons] at ih ⊢
    omega
  | revFwd h v l _ _ ih =>
    simp only [List.filterMap_cons, List.length_cons] at ih ⊢
    omega

theorem nodup_hosts {l : List (Key × Val)} (hn : (l.map Prod.fst).Nodup) :
    (l.filterMap (fun e => match e.1 with
      | Key.str h => some h
      | Key.u32 _ => none)).Nodup := by
  induction l with
  | nil => exact List.nodup_nil
  | cons e t ih =>
    rw [List.map_cons, List.nodup_cons] at hn
    rw [List.filterMap_cons]
    cases hk : e.1 with
    | u32 o => simp only; exact ih hn.2
    | str h =>
      simp only
      rw [List.nodup_cons]
      refine ⟨?_, ih hn.2⟩
      intro hmem
      obtain ⟨e', he', hh⟩ := List.mem_filterMap.1 hmem
      have : e'.1 = Key.str h := by
        cases hk' : e'.1 with
        | u32 o => rw [hk'] at hh; cases hh
        | str h' => rw [hk'] at hh; simp only [Option.some.injEq] at hh; rw [hh]
      exact hn.1 (List.mem_map.2 ⟨e', he', by rw [this, hk]⟩)

theorem reverse_of_length (p : Pool) {a : IP} {n : Nat} (hl : a.length = 4)
    (hn : ipToUint a = some n) :
    p.reverse a = assoc (Key.u32 (offsetOf p.min n)) p.cache.lru := by
  have h : (To4 a).bind ipToUint = some n := by
    rw [To4_of_length hl]; exact hn
  simp only [Pool.reverse, h, offsetOf]

theorem Coupled_fwd {p : Pool} (hw : p.WF) (hc : p.Coupled) {host : String} {x : Val}
    (h : p.forward host = some x) :
    ∃ a, x = Val.ip a ∧ a.length = 4 ∧ p.reverse a = some (Val.str host) := by
  obtain ⟨v, hv, hx, hr⟩ := hc.paired.mem_fwd (mem_of_assoc h)
  refine ⟨uintToIP v, hx, length_uintToIP v, ?_⟩
  rw [reverse_of_length p (length_uintToIP v) (ipToUint_uintToIP hv)]
  exact assoc_of_mem hw.nodup hr

theorem Coupled_rev {p : Pool} (hw : p.WF) (hc : p.Coupled) {o : Nat} {x : Val}
    (h : assoc (Key.u32 o) p.cache.lru = some x) :
    ∃ host v, v < 4294967296 ∧ o = offsetOf p.min v ∧ x = Val.str host ∧
      p.forward host = some (Val.ip (uintToIP v)) := by
  obtain ⟨host, v, hv, ho, hx, hf⟩ := hc.paired.mem_rev (mem_of_assoc h)
  exact ⟨host, v, hv, ho, hx, assoc_of_mem hw.nodup hf⟩

theorem New_Coupled {ipnet : IPNet} {size : Int} {p : Pool} (h : New ipnet size = some (.ok p)) :
    p.Coupled ∧ p.cache.maxSize = 2 * size := by
  obtain ⟨n, -, -, hp⟩ := New_ok h
  have hc : p.cache.lru = [] := by rw [hp]; rfl
  have hm : p.cache.maxSize = size * 2 := by rw [hp]; rfl
  refine ⟨⟨?_, ?_⟩, by omega⟩
  · rw [hc]; exact Paired.nil
  · intro e he; rw [hc] at he; cases he

theorem Lookup_hit_Coupled {p : Pool} (hw : p.WF) (hc : p.Coupled) {host : String} {a : IP}
    (hs : assoc (Key.str host) p.cache.lru = some (Val.ip a)) :
    ∃ p1, p.Lookup host = some (p1, a) ∧ p1.Coupled := by
  have hl : a.length = 4 := by
    have := hw.typed _ (mem_of_assoc hs)
    simpa [Typed] using this
  obtain ⟨n, hn, hL⟩ := Lookup_hit hs hl
  refine ⟨_, hL, ⟨?_, ?_⟩⟩
  · exact hc.paired.promote_fwd hw.nodup hs hn
  · intro e he o ho
    exact hc.below e (mem_Get (mem_Get he)) o ho

theorem Lookup_miss_Coupled {p : Pool} (hw : p.WF) (hc : p.Coupled) {s : Int}
    (hcap : p.cache.maxSize = 2 * s) (hs1 : 1 ≤ s) (hs2 : s < sub32 p.max p.min)
    {host : String} (hs : assoc (Key.str host) p.cache.lru = none) :
    ∃ p1 a, p.Lookup host = some (p1, a) ∧ p1.Coupled ∧
      p.cache.Exist (Key.u32 p1.offset) = false ∧ p.reverse a = none ∧
      p1.forward host = some (Val.ip a) := by
  have hlt := sub32_lt p.max p.min
  have hlen := hw.size_le
  obtain ⟨r, hr, hfree⟩ := @exists_free_offset p.min (sub32 p.max p.min) p.cache hc.paired
    (by omega)
  obtain ⟨o, hloop, ho⟩ := getLoop_some p p.offset (sub32 p.max p.min + 1) p.offset
    (sub32 p.max p.min) hw.offset_lt
    (by rw [Nat.add_mod_right]; exact Nat.mod_eq_of_lt hw.offset_lt) hw.modulus_pos (by omega)
  have hex := getLoop_free hw hr hfree hloop
  have hrev : assoc (Key.u32 o) p.cache.lru = none := by
    simp only [LruCache.Exist] at hex
    cases h : assoc (Key.u32 o) p.cache.lru with
    | none => rfl
    | some x => rw [h] at hex; cases hex
  have hv := sub32_lt (add32 p.min o) 1
  have hoff : offsetOf p.min (sub32 (add32 p.min o) 1) = o := by
    simp only [offsetOf, sub32, add32, wrap32]; omega
  have hL := Lookup_miss hs
  rw [get_eq hloop] at hL
  simp only at hL
  have hpair := @Paired.set_couple p.min p.cache hc.paired s hcap hs1 hlen host
    (sub32 (add32 p.min o) 1) hv hs (by rw [hoff]; exact hrev)
  rw [hoff] at hpair
  refine ⟨_, _, hL, ⟨hpair, ?_⟩, hex, ?_, ?_⟩
  · intro e he o' ho'
    rcases mem_Set he with h1 | h1
    · rw [h1] at ho'; cases ho'
    · rcases mem_Set h1.1 with h2 | h2
      · rw [h2] at ho'
        simp only [Key.u32.injEq] at ho'
        rw [← ho']; exact ho
      · exact hc.below e h2.1 o' ho'
  · rw [reverse_of_length p (length_uintToIP _) (ipToUint_uintToIP hv), hoff]
    exact hrev
  · exact assoc_Set_self _ _ (by rw [Set_maxSize]; omega)

theorem LookBack_Coupled {p : Pool} (hw : p.WF) (hc : p.Coupled) {ip : IP} {q : Pool}
    {r : String × Bool} (h : p.LookBack ip = some (q, r)) : q.Coupled := by
  rcases LookBack_cases p ip hw.typed with h1 | ⟨o, host, hs, h1⟩
  · rw [h1] at h
    cases h
    exact hc
  · rw [h1] at h
    cases h
    refine ⟨hc.paired.promote_rev hw.nodup hs, ?_⟩
    intro e he o' ho'
    exact hc.below e (mem_Get (mem_Get he)) o' ho'

theorem step_Coupled {p q : Pool} (hw : p.WF) (hc : p.Coupled) {s : Int}
    (hcap : p.cache.maxSize = 2 * s) (hs1 : 1 ≤ s) (hs2 : s < sub32 p.max p.min) {op : Op}
    (h : p.step op = some q) : q.Coupled := by
  cases op with
  | Lookup host =>
    cases hs : assoc (Key.str host) p.cache.lru with
    | none =>
      obtain ⟨p1, a, hL, hc1, -⟩ := Lookup_miss_Coupled hw hc hcap hs1 hs2 hs
      simp only [Pool.step, hL, Option.map, Option.some.injEq] at h
      rw [← h]; exact hc1
    | some x =>
      have ht := hw.typed _ (mem_of_assoc hs)
      cases x with
      | str y => simp [Typed] at ht
      | ip a =>
        obtain ⟨p1, hL, hc1⟩ := Lookup_hit_Coupled hw hc hs
        simp only [Pool.step, hL, Option.map, Option.some.injEq] at h
        rw [← h]; exact hc1
  | LookBack ip =>
    simp only [Pool.step] at h
    cases hL : p.LookBack ip with
    | none => rw [hL] at h; cases h
    | some r =>
      rw [hL] at h
      simp only [Option.map, Option.some.injEq] at h
      rw [← h]
      exact LookBack_Coupled hw hc hL
  | Exist ip =>
    simp only [Pool.step] at h
    cases hE : p.Exist ip with
    | none => rw [hE] at h; cases h
    | some b =>
      rw [hE] at h
      simp only [Option.map, Option.some.injEq] at h
      rw [← h]; exact hc

theorem run_Coupled {s : Int} (hs1 : 1 ≤ s) (ops : List Op) :
    ∀ {p q : Pool}, p.WF → p.Coupled → p.cache.maxSize = 2 * s → s < sub32 p.max p.min →
      p.run ops = some q → q.Coupled := by
  induction ops with
  | nil =>
    intro p q _ hc _ _ h
    simp only [Pool.run, Option.some.injEq] at h
    rw [← h]; exact hc
  | cons op ops ih =>
    intro p q hw hc hcap hs2 h
    obtain ⟨p1, h1, hw1, hsc⟩ := step_total hw op
    simp only [Pool.run, h1, Option.bind] at h
    have hc1 := step_Coupled hw hc hcap hs1 hs2 h1
    exact ih hw1 hc1 (by rw [hsc.2.2.2.2]; exact hcap) (by rw [hsc.1, hsc.2.1]; exact hs2) h

end Fakeip

/-! ## The claims on the allocator -/

namespace Fakeip

open Cache

/-- C5: in every state reachable from a pool built by New with requested size at least 1,
two consecutive Lookup calls for one host both return, with the same address, and the second
call keeps the cursor, the bounds and the capacity and only reorders the entries of the store
(the list of entries after it is a permutation of the list before it). -/
theorem lookup_twice_stable (ipnet : IPNet) (size : Int) (p0 p : Pool) (ops : List Op)
    (host : String) (hnew : New ipnet size = some (.ok p0)) (hsize : 1 ≤ size)
    (hrun : p0.run ops = some p) :
    ∃ p1 p2 a, p.Lookup host = some (p1, a) ∧ p1.Lookup host = some (p2, a) ∧
      p2.offset = p1.offset ∧ p1.SameConfig p2 ∧ p2.cache.lru.Perm p1.cache.lru := by
  obtain ⟨hw, hc⟩ := run_WF (New_WF hnew) hrun
  have hcap : 1 ≤ p.cache.maxSize := by
    obtain ⟨n, -, -, hp⟩ := New_ok hnew
    have h0 : p0.cache.maxSize = size * 2 := by rw [hp]; rfl
    have := hc.2.2.2.2
    omega
  obtain ⟨p1, a, h1, hw1, -, hl, ha⟩ := Lookup_total hw host
  obtain ⟨n, -, h2⟩ := Lookup_hit (ha hcap) hl
  exact ⟨p1, _, a, h1, h2, rfl, SameConfig_Get_Get p1 _ _, perm_Get_Get hw1 _ _⟩

/-- C5, at a concrete input: the pool of 198.18.0.0/16 with size 1000 after Lookup of a.com,
and the host b.com. -/
theorem lookup_twice_stable_witness :
    ∃ p1 p2 a, exampleOld.Lookup "b.com" = some (p1, a) ∧ p1.Lookup "b.com" = some (p2, a) ∧
      p2.offset = p1.offset ∧ p1.SameConfig p2 ∧ p2.cache.lru.Perm p1.cache.lru :=
  lookup_twice_stable exampleNet 1000 examplePool exampleOld [.Lookup "a.com"] "b.com" rfl
    (by decide) (by decide)

/-- C3, at the failing input: on the pool that New builds for 198.18.0.0/30 the first Lookup
returns 198.18.0.1, which is the gateway and not min (198.18.0.2); on the pool of
198.18.0.0/16 with size 1000 the first Lookup returns min, 198.18.0.2. -/
theorem first_lookup_slash30 :
    New net30 2 = some (.ok pool30) ∧
    (pool30.Lookup "example.com").map (fun r => r.2) = some [198, 18, 0, 1] ∧
    uintToIP pool30.min = [198, 18, 0, 2] ∧ pool30.Gateway = [198, 18, 0, 1] ∧
    New exampleNet 1000 = some (.ok examplePool) ∧
    (examplePool.Lookup "example.com").map (fun r => r.2) = some [198, 18, 0, 2] :=
  ⟨rfl, by decide, by decide, by decide, rfl, by decide⟩

/-- C4, at the failing input: on the pool that New builds for 198.18.0.0/29 the fifth Lookup
of a new host returns 198.18.0.1, the gateway, which is below min (198.18.0.2). -/
theorem lookup_returns_gateway :
    New net29 6 = some (.ok pool29) ∧
    (pool29.lookups ["a.com", "b.com", "c.com", "d.com", "e.com"]).map (fun r => r.2)
      = some [[198, 18, 0, 2], [198, 18, 0, 3], [198, 18, 0, 4], [198, 18, 0, 5],
          [198, 18, 0, 1]] ∧
    pool29.Gateway = [198, 18, 0, 1] ∧ uintToIP pool29.min = [198, 18, 0, 2] ∧
    ipLt [198, 18, 0, 1] (uintToIP pool29.min) :=
  ⟨rfl, by decide, by decide, by decide, by decide⟩

/-- C1, at the failing input: on the pool of 198.18.0.0/30 with size 2, after Lookup of a.com
and of b.com, Lookup of a.com returns 198.18.0.1 and LookBack of that address returns b.com;
on the pool of 198.18.0.0/29 with size 6, after Lookup of six hosts, Lookup of the fifth
returns 198.18.0.1 and LookBack of that address returns the sixth. -/
theorem roundtrip_fails_after_recycling :
    New net30 2 = some (.ok pool30) ∧
    ((pool30.run [.Lookup "a.com", .Lookup "b.com"]).bind (fun p => p.Lookup "a.com")).bind
        (fun r => (r.1.LookBack r.2).map (fun s => (r.2, s.2)))
      = some ([198, 18, 0, 1], "b.com", true) ∧
    New net29 6 = some (.ok pool29) ∧
    ((pool29.run [.Lookup "a.com", .Lookup "b.com", .Lookup "c.com", .Lookup "d.com",
          .Lookup "e.com", .Lookup "f.com"]).bind (fun p => p.Lookup "e.com")).bind
        (fun r => (r.1.LookBack r.2).map (fun s => (r.2, s.2)))
      = some ([198, 18, 0, 1], "f.com", true) :=
  ⟨rfl, by decide, rfl, by decide⟩

/-- C7: for a 4-byte network address and a prefix length p of at most 32 bits, New returns
the error, and no pool, exactly when 2^(32-p) - 2 is at most 0, which is exactly when p is
31 or 32; for every p up to 30 it returns a pool. -/
theorem New_fails_iff (ip : IP) (p : Nat) (size : Int) (hip : ip.length = 4) (hp : p ≤ 32) :
    (New ⟨ip, p, 32⟩ size = some (.error "ipnet don't have valid ip")
      ↔ (2 : Int) ^ (32 - p) - 2 ≤ 0) ∧
    ((2 : Int) ^ (32 - p) - 2 ≤ 0 ↔ p = 31 ∨ p = 32) ∧
    (New ⟨ip, p, 32⟩ size = some (.error "ipnet don't have valid ip")
      ↔ ¬ ∃ pool, New ⟨ip, p, 32⟩ size = some (.ok pool)) ∧
    (p ≤ 30 → ∃ pool, New ⟨ip, p, 32⟩ size = some (.ok pool)) := by
  obtain ⟨n, hn, -⟩ := ipToUint_of_length hip
  have hnew := New_ipv4 ip n p size hn hp
  have hiff : (2 : Int) ^ (32 - p) - 2 ≤ 0 ↔ p = 31 ∨ p = 32 := by
    interval_cases p <;> simp
  by_cases h30 : p ≤ 30
  · rw [if_pos h30] at hnew
    have h1 : ¬ (p = 31 ∨ p = 32) := by omega
    refine ⟨?_, hiff, ?_, fun _ => ⟨_, hnew⟩⟩
    · rw [hiff, hnew]; simp [h1]
    · rw [hnew]; simp
  · rw [if_neg h30] at hnew
    have h1 : p = 31 ∨ p = 32 := by omega
    refine ⟨?_, hiff, ?_, fun h => absurd h h30⟩
    · rw [hiff, hnew]; simp [h1]
    · rw [hnew]; simp

/-- C7, at a concrete input: 198.18.0.0/31. -/
theorem New_fails_iff_witness :
    (New ⟨[198, 18, 0, 0], 31, 32⟩ 1000 = some (.error "ipnet don't have valid ip")
      ↔ (2 : Int) ^ (32 - 31) - 2 ≤ 0) ∧
    ((2 : Int) ^ (32 - 31) - 2 ≤ 0 ↔ 31 = 31 ∨ 31 = 32) ∧
    (New ⟨[198, 18, 0, 0], 31, 32⟩ 1000 = some (.error "ipnet don't have valid ip")
      ↔ ¬ ∃ pool, New ⟨[198, 18, 0, 0], 31, 32⟩ 1000 = some (.ok pool)) ∧
    (31 ≤ 30 → ∃ pool, New ⟨[198, 18, 0, 0], 31, 32⟩ 1000 = some (.ok pool)) :=
  New_fails_iff [198, 18, 0, 0] 31 1000 rfl (by decide)

/-- C6, as stated, fails: the pool that New builds for 198.18.0.0/16 has max 198.18.255.255
and not 198.18.255.254. -/
theorem New_example_max_ne :
    New exampleNet 1000 = some (.ok examplePool) ∧
    uintToIP examplePool.max = [198, 18, 255, 255] ∧
    uintToIP examplePool.max ≠ [198, 18, 255, 254] :=
  ⟨rfl, by decide, by decide⟩

/-- C6, amended: for every 4-byte network address reading as n, every prefix length p up to 30
and every requested size, New returns a pool with min = n + 2, gateway = min - 1 = n + 1 and
max = min + (2^(32-p) - 2) - 1 in 32-bit unsigned arithmetic, and Gateway() returns the four
bytes of gateway, most significant first; for 198.18.0.0/16 this gives min 198.18.0.2,
gateway 198.18.0.1, 65534 usable addresses and max 198.18.255.255. -/
theorem New_bounds :
    (∀ (ip : IP) (n p : Nat) (size : Int), ip.length = 4 → ipToUint ip = some n → p ≤ 30 →
      ∃ pool, New ⟨ip, p, 32⟩ size = some (.ok pool) ∧ pool.min = add32 n 2 ∧
        pool.gateway = sub32 pool.min 1 ∧ pool.gateway = add32 n 1 ∧
        pool.max = sub32 (add32 pool.min (2 ^ (32 - p) - 2)) 1 ∧
        pool.Gateway = uintToIP pool.gateway ∧ pool.Gateway.length = 4 ∧
        ipToUint pool.Gateway = some pool.gateway) ∧
    (New exampleNet 1000 = some (.ok examplePool) ∧
      uintToIP examplePool.min = [198, 18, 0, 2] ∧
      uintToIP examplePool.gateway = [198, 18, 0, 1] ∧
      examplePool.Gateway = [198, 18, 0, 1] ∧
      total exampleNet = 65534 ∧
      uintToIP examplePool.max = [198, 18, 255, 255]) := by
  refine ⟨?_, rfl, by decide, by decide, by decide, by decide, by decide⟩
  intro ip n p size hip hn hp
  have hnew := New_ipv4 ip n p size hn (by omega)
  rw [if_pos hp] at hnew
  obtain ⟨m, hm, hlt⟩ := ipToUint_of_length hip
  have hnm : m = n := by rw [hn] at hm; cases hm; rfl
  subst hnm
  refine ⟨_, hnew, rfl, rfl, ?_, rfl, rfl, rfl, ?_⟩
  · simp only [sub32, add32, wrap32]; omega
  · exact ipToUint_uintToIP (sub32_lt _ _)

/-- C6, amended, at a concrete input: 198.18.0.0/16 with size 1000. -/
theorem New_bounds_witness :
    ∃ pool, New ⟨[198, 18, 0, 0], 16, 32⟩ 1000 = some (.ok pool) ∧
      pool.min = add32 3323068416 2 ∧
      pool.gateway = sub32 pool.min 1 ∧ pool.gateway = add32 3323068416 1 ∧
      pool.max = sub32 (add32 pool.min (2 ^ (32 - 16) - 2)) 1 ∧
      pool.Gateway = uintToIP pool.gateway ∧ pool.Gateway.length = 4 ∧
      ipToUint pool.Gateway = some pool.gateway :=
  New_bounds.1 [198, 18, 0, 0] 3323068416 16 1000 rfl rfl (by decide)

/-- C2, as stated, fails: on the pool that New builds for 198.18.0.0/29 with requested size 6,
six pairwise distinct hosts (6 is at most the size and at most max - min + 1) are given the
addresses .2, .3, .4, .5, .1, .1: the fifth is below the fourth and the sixth repeats the
fifth. -/
theorem lookups_not_increasing :
    New net29 6 = some (.ok pool29) ∧ hosts6.Nodup ∧ (hosts6.length : Int) ≤ 6 ∧
    hosts6.length ≤ pool29.max - pool29.min + 1 ∧
    (pool29.lookups hosts6).map (fun r => r.2)
      = some [[198, 18, 0, 2], [198, 18, 0, 3], [198, 18, 0, 4], [198, 18, 0, 5],
          [198, 18, 0, 1], [198, 18, 0, 1]] ∧
    ipLt [198, 18, 0, 1] [198, 18, 0, 5] ∧
    ¬ ([[198, 18, 0, 2], [198, 18, 0, 3], [198, 18, 0, 4], [198, 18, 0, 5],
          [198, 18, 0, 1], [198, 18, 0, 1]] : List IP).Nodup :=
  ⟨rfl, by decide, by decide, by decide, by decide, by decide, by decide⟩

/-- C2, amended: for every pool freshly built by New from an IPv4 CIDR block, whatever the
requested size, and every list of n pairwise distinct hosts with n < max - min, looking the
hosts up in order returns the addresses min, min + 1, ..., min + n - 1: they are pairwise
distinct and each is strictly greater than all those returned before it. -/
theorem lookups_increasing (ipnet : IPNet) (size : Int) (p0 : Pool) (hosts : List String)
    (hcidr : ipnet.IsCIDR4) (hnew : New ipnet size = some (.ok p0)) (hd : hosts.Nodup)
    (hn : hosts.length < p0.max - p0.min) :
    ∃ p1 addrs, p0.lookups hosts = some (p1, addrs) ∧
      addrs = (List.range hosts.length).map (fun i => uintToIP (p0.min + i)) ∧
      addrs.Pairwise ipLt ∧ addrs.Nodup := by
  obtain ⟨ip, ones, bits⟩ := ipnet
  obtain ⟨hbits, hones, hlen, n, hip, hal⟩ := hcidr
  simp only at hbits hones hlen hip hal
  subst hbits
  obtain ⟨m, hm, hlt⟩ := ipToUint_of_length hlen
  have hmn : m = n := by rw [hip] at hm; cases hm; rfl
  subst hmn
  have h1 := New_ipv4 ip m ones size hip hones
  rw [hnew] at h1
  by_cases h30 : ones ≤ 30
  · rw [if_pos h30] at h1
    simp only [Option.some.injEq, Except.ok.injEq] at h1
    obtain ⟨hw1, hw2⟩ := cidr_no_wrap m ones hlt h30 hal
    have hmin : p0.min = m + 2 := by
      rw [h1]; simp only [add32, wrap32]; omega
    have hmax : p0.max = m + 2 ^ (32 - ones) - 1 := by
      rw [h1]; simp only [sub32, add32, wrap32]; omega
    have hsub : sub32 p0.max p0.min = p0.max - p0.min := by
      rw [hmax, hmin]; simp only [sub32, wrap32]; omega
    have hoff : p0.offset = 0 := by rw [h1]
    have hcache : p0.cache.lru = [] := by rw [h1]; rfl
    obtain ⟨p1, hp1⟩ := lookups_fresh hosts p0 0 [] hoff (by rw [hsub]; omega)
      (by intro e he; rw [hcache] at he; cases he) hd (fun _ _ => List.not_mem_nil _)
    have haddr : (List.range hosts.length).map
          (fun i => uintToIP (sub32 (add32 p0.min (0 + 1 + i)) 1))
        = (List.range hosts.length).map (fun i => uintToIP (p0.min + i)) := by
      apply List.map_congr_left
      intro i hi
      rw [List.mem_range] at hi
      have : sub32 (add32 p0.min (0 + 1 + i)) 1 = p0.min + i := by
        simp only [sub32, add32, wrap32]; omega
      rw [this]
    rw [haddr] at hp1
    have hpw : ((List.range hosts.length).map (fun i => uintToIP (p0.min + i))).Pairwise
        ipLt := by
      rw [List.pairwise_map]
      refine List.Pairwise.imp_of_mem ?_ (List.pairwise_lt_range hosts.length)
      intro i j _ hj hij
      rw [List.mem_range] at hj
      exact ipLt_uintToIP (by omega) (by omega)
    refine ⟨p1, _, hp1, rfl, hpw, ?_⟩
    unfold List.Nodup
    refine List.Pairwise.imp ?_ hpw
    intro a b hab heq
    rw [heq] at hab
    exact ipLt_irrefl _ hab
  · rw [if_neg h30] at h1
    simp at h1

/-- C2, amended, at a concrete input: three hosts on the pool of 198.18.0.0/16. -/
theorem lookups_increasing_witness :
    ∃ p1 addrs, examplePool.lookups ["a.com", "b.com", "c.com"] = some (p1, addrs) ∧
      addrs = (List.range ["a.com", "b.com", "c.com"].length).map
        (fun i => uintToIP (examplePool.min + i)) ∧
      addrs.Pairwise ipLt ∧ addrs.Nodup :=
  lookups_increasing exampleNet 1000 examplePool ["a.com", "b.com", "c.com"]
    ⟨rfl, by decide, rfl, 3323068416, rfl, by decide⟩ rfl (by decide) (by decide)

/-- C10, as stated, fails: on the pool of 198.18.0.0/30 with size 2, after Lookup of a.com and
of b.com the store holds the forward entry of a.com, with address 198.18.0.1, and a reverse
entry for 198.18.0.1; after PatchFrom into a fresh pool of the same block and size, LookBack
of 198.18.0.1 returns b.com and not a.com. -/
theorem PatchFrom_stale_pair :
    New net30 2 = some (.ok pool30) ∧
    pool30.run [.Lookup "a.com", .Lookup "b.com"] = some staleOld ∧
    staleOld.forward "a.com" = some (Val.ip [198, 18, 0, 1]) ∧
    (staleOld.reverse [198, 18, 0, 1]).isSome = true ∧
    ((pool30.PatchFrom staleOld).LookBack [198, 18, 0, 1]).map (fun r => r.2)
      = some ("b.com", true) :=
  ⟨rfl, by decide, by decide, by decide, by decide⟩

/-- C10, amended: for pools old and fresh built by New from the same block, fresh unused and
with a requested size at least that of old, every state of old reachable by Lookup, LookBack
and Exist calls, and every host h for which old holds the forward entry h -> a and the
reverse entry for a naming h: after fresh.PatchFrom(old), fresh holds the forward entry
h -> a and fresh.LookBack(a) returns (h, true). -/
theorem PatchFrom_LookBack (ipnet : IPNet) (sizeOld sizeNew : Int) (old0 old fresh : Pool)
    (ops : List Op) (host : String) (a : IP)
    (hold : New ipnet sizeOld = some (.ok old0)) (hrun : old0.run ops = some old)
    (hfresh : New ipnet sizeNew = some (.ok fresh)) (hsize : sizeOld ≤ sizeNew)
    (hfwd : old.forward host = some (Val.ip a))
    (hrev : old.reverse a = some (Val.str host)) :
    (fresh.PatchFrom old).forward host = some (Val.ip a) ∧
      ∃ p1, (fresh.PatchFrom old).LookBack a = some (p1, host, true) := by
  obtain ⟨hw, hc⟩ := run_WF (New_WF hold) hrun
  obtain ⟨n, hn, -, hp0⟩ := New_ok hold
  obtain ⟨m, hm, -, hpf⟩ := New_ok hfresh
  have hnm : m = n := by rw [hn] at hm; cases hm; rfl
  subst hnm
  have hmin : fresh.min = old.min := by
    rw [hc.2.1, hpf, hp0]
  have hcap : old.cache.maxSize = sizeOld * 2 := by
    rw [hc.2.2.2.2, hp0]; rfl
  have hfc : fresh.cache = ⟨sizeNew * 2, []⟩ := by rw [hpf]; rfl
  have hpos : 0 < old.cache.lru.length :=
    List.length_pos_of_mem (mem_of_assoc hfwd)
  have hlen := hw.size_le
  have hclone : (fresh.PatchFrom old).cache = ⟨sizeNew * 2, old.cache.lru⟩ := by
    simp only [Pool.PatchFrom]
    rw [CloneTo_empty old.cache fresh.cache (by rw [hfc]) hw.nodup (by rw [hfc]; simp only; omega),
      hfc]
  have hmin2 : (fresh.PatchFrom old).min = old.min := hmin
  refine ⟨by simp only [Pool.forward, hclone]; exact hfwd, ?_⟩
  unfold Pool.reverse at hrev
  cases hb : (To4 a).bind ipToUint with
  | none => rw [hb] at hrev; cases hrev
  | some k =>
    rw [hb] at hrev
    simp only at hrev
    exact LookBack_hit hb (by rw [hclone, hmin2]; exact hrev)

/-- C10, amended, at a concrete input: old is the pool of 198.18.0.0/16 with size 1000 in
which a.com is mapped to 198.18.0.2; after PatchFrom, LookBack of 198.18.0.2 on the fresh
pool returns a.com. -/
theorem PatchFrom_LookBack_witness :
    (examplePool.PatchFrom exampleOld).forward "a.com" = some (Val.ip [198, 18, 0, 2]) ∧
      ∃ p1, (examplePool.PatchFrom exampleOld).LookBack [198, 18, 0, 2]
        = some (p1, "a.com", true) :=
  PatchFrom_LookBack exampleNet 1000 1000 examplePool exampleOld examplePool
    [.Lookup "a.com"] "a.com" [198, 18, 0, 2] rfl (by decide) rfl (by decide) (by decide)
    (by decide)

/-- C11, at the failing input: on the pool of 198.18.0.0/30 with size 2, after Lookup of a.com
and of b.com the store holds the forward entry of a.com with address 198.18.0.1 and, at the
offset of 198.18.0.1, a reverse entry that names b.com; on the pool of 198.18.0.0/29 with size
6, after Lookup of six hosts, the forward entry of the fifth and the reverse entry at the
offset of its address, which names the sixth, are both held. -/
theorem pairing_broken_after_recycling :
    New net30 2 = some (.ok pool30) ∧
    pool30.run [.Lookup "a.com", .Lookup "b.com"] = some staleOld ∧
    staleOld.forward "a.com" = some (Val.ip [198, 18, 0, 1]) ∧
    staleOld.reverse [198, 18, 0, 1] = some (Val.str "b.com") ∧
    New net29 6 = some (.ok pool29) ∧
    (pool29.run (hosts6.map Op.Lookup)).map
        (fun p => (p.forward "e.com", p.reverse [198, 18, 0, 1]))
      = some (some (Val.ip [198, 18, 0, 1]), some (Val.str "f.com")) :=
  ⟨rfl, by decide, by decide, by decide, rfl, by decide⟩

/-- C12: in every state reachable from a pool built by New, the modulus max - min of the
cursor is not zero, the cursor is below it, the loop of get ends within max - min iterations,
and Lookup returns a 4-byte address for every host, leaving the cursor below the modulus. -/
theorem Lookup_never_fails (ipnet : IPNet) (size : Int) (p0 p : Pool) (ops : List Op)
    (host : String) (hnew : New ipnet size = some (.ok p0)) (hrun : p0.run ops = some p) :
    sub32 p.max p.min ≠ 0 ∧ p.offset < sub32 p.max p.min ∧
    (∃ o, getLoop p p.offset (sub32 p.max p.min) p.offset = some o ∧ o < sub32 p.max p.min) ∧
    (∃ p1 a, p.Lookup host = some (p1, a) ∧ a.length = 4 ∧
      p1.offset < sub32 p1.max p1.min) := by
  obtain ⟨hw, -⟩ := run_WF (New_WF hnew) hrun
  have h1 := hw.modulus_pos
  obtain ⟨p1, a, h2, hw1, -, hl, -⟩ := Lookup_total hw host
  exact ⟨by omega, hw.offset_lt, getLoop_within_range hw, p1, a, h2, hl, hw1.offset_lt⟩

/-- C12, at a concrete input: the pool of 198.18.0.0/30 with size 2 after two Lookups. -/
theorem Lookup_never_fails_witness :
    sub32 staleOld.max staleOld.min ≠ 0 ∧ staleOld.offset < sub32 staleOld.max staleOld.min ∧
    (∃ o, getLoop staleOld staleOld.offset (sub32 staleOld.max staleOld.min) staleOld.offset
        = some o ∧ o < sub32 staleOld.max staleOld.min) ∧
    (∃ p1 a, staleOld.Lookup "c.com" = some (p1, a) ∧ a.length = 4 ∧
      p1.offset < sub32 p1.max p1.min) :=
  Lookup_never_fails net30 2 pool30 staleOld [.Lookup "a.com", .Lookup "b.com"] "c.com" rfl
    (by decide)

/-- C15: in every state reachable from a pool built by New and for every input, Exist returns,
and returns true exactly when the input is an IPv4 address (4 bytes, or 16 bytes in the
IPv4-mapped form) for whose offset, ip - min + 1, the store holds a reverse entry, which names
a host; for an input that is not an IPv4 address Exist returns false and LookBack returns
the empty name and false; and the pool after Exist is the pool before it. -/
theorem Exist_spec (ipnet : IPNet) (size : Int) (p0 p : Pool) (ops : List Op) (ip : IP)
    (hnew : New ipnet size = some (.ok p0)) (hrun : p0.run ops = some p) :
    ∃ b, p.Exist ip = some b ∧
      (b = true ↔ ∃ host, p.reverse ip = some (Val.str host)) ∧
      (b = true → ∃ ip4 n, To4 ip = some ip4 ∧ ipToUint ip4 = some n ∧
        p.cache.Exist (Key.u32 (add32 (sub32 n p.min) 1)) = true) ∧
      (To4 ip = none → b = false ∧ p.LookBack ip = some (p, "", false)) ∧
      p.step (.Exist ip) = some p := by
  obtain ⟨hw, -⟩ := run_WF (New_WF hnew) hrun
  cases h4 : To4 ip with
  | none =>
    have hE : p.Exist ip = some false := by simp only [Pool.Exist, h4]
    have hR : p.reverse ip = none := by simp only [Pool.reverse, h4, Option.bind]
    refine ⟨false, hE, ?_, ?_, ?_, ?_⟩
    · rw [hR]; simp
    · intro h; cases h
    · intro _; exact ⟨rfl, by simp only [Pool.LookBack, h4]⟩
    · simp only [Pool.step, hE, Option.map]
  | some ip4 =>
    obtain ⟨n, hn, -⟩ := ipToUint_of_length (To4_length h4)
    obtain ⟨hE, hR⟩ := @Exist_eq p ip ip4 n h4 hn
    refine ⟨_, hE, ?_, ?_, ?_, ?_⟩
    · rw [hR]
      unfold LruCache.Exist
      cases hs : assoc (Key.u32 (add32 (sub32 n p.min) 1)) p.cache.lru with
      | none => simp
      | some v =>
        have ht := hw.typed _ (mem_of_assoc hs)
        cases v with
        | ip a => simp [Typed] at ht
        | str host => simp
    · intro hb
      exact ⟨ip4, n, rfl, hn, hb⟩
    · intro h; cases h
    · simp only [Pool.step, hE, Option.map]

/-- C15, at a concrete input: the pool of 198.18.0.0/16 after Lookup of a.com, and the
address 198.18.0.2 in its 16-byte form. -/
theorem Exist_spec_witness :
    ∃ b, exampleOld.Exist [0, 0, 0, 0, 0, 0, 0, 0, 0, 0, 255, 255, 198, 18, 0, 2] = some b ∧
      (b = true ↔ ∃ host,
        exampleOld.reverse [0, 0, 0, 0, 0, 0, 0, 0, 0, 0, 255, 255, 198, 18, 0, 2]
          = some (Val.str host)) ∧
      (b = true → ∃ ip4 n,
        To4 [0, 0, 0, 0, 0, 0, 0, 0, 0, 0, 255, 255, 198, 18, 0, 2] = some ip4 ∧
        ipToUint ip4 = some n ∧
        exampleOld.cache.Exist (Key.u32 (add32 (sub32 n exampleOld.min) 1)) = true) ∧
      (To4 [0, 0, 0, 0, 0, 0, 0, 0, 0, 0, 255, 255, 198, 18, 0, 2] = none → b = false ∧
        exampleOld.LookBack [0, 0, 0, 0, 0, 0, 0, 0, 0, 0, 255, 255, 198, 18, 0, 2]
          = some (exampleOld, "", false)) ∧
      exampleOld.step (.Exist [0, 0, 0, 0, 0, 0, 0, 0, 0, 0, 255, 255, 198, 18, 0, 2])
        = some exampleOld :=
  Exist_spec exampleNet 1000 examplePool exampleOld [.Lookup "a.com"]
    [0, 0, 0, 0, 0, 0, 0, 0, 0, 0, 255, 255, 198, 18, 0, 2] rfl (by decide)

/-- C19, at the failing input: on the pool of 198.18.0.0/29 with size 6, after Lookup of five
hosts the cursor is 0 and the five offsets 0 to 4 of the cursor range are occupied; Lookup
of a sixth host, f.com, returns 198.18.0.1, whose offset is the cursor 0 and not the next
position 1, leaves the cursor at 0, replaces e.com by f.com in the reverse entry of
198.18.0.1, and leaves a.com in the reverse entry at offset 1, that of 198.18.0.2. -/
theorem recycle_lands_on_cursor :
    New net29 6 = some (.ok pool29) ∧
    fullPool29.map (fun p => (p.offset, sub32 p.max p.min,
        (List.range 5).all (fun r => p.cache.Exist (Key.u32 r)), p.forward "f.com",
        p.reverse [198, 18, 0, 1], p.reverse [198, 18, 0, 2]))
      = some (0, 5, true, none, some (Val.str "e.com"), some (Val.str "a.com")) ∧
    (fullPool29.bind (fun p => p.Lookup "f.com")).map (fun r => (r.2, r.1.offset,
        r.1.reverse [198, 18, 0, 1], r.1.reverse [198, 18, 0, 2]))
      = some ([198, 18, 0, 1], 0, some (Val.str "f.com"), some (Val.str "a.com")) ∧
    (0 + 1) % 5 = 1 :=
  ⟨rfl, rfl, rfl, rfl⟩

/-- C20: for a pool built by New with a requested size s, 1 <= s < max - min, in every state
reachable by Lookup, LookBack and Exist calls: the store holds the forward entry of a host h
with a (4-byte) address a if and only if it holds, at the offset of a, the reverse entry that
names h; every forward entry and every reverse entry is half of such a couple; at most s
hosts are mapped; no two mapped hosts share an address; and Lookup of a host without forward
entry returns, and stores the host at an offset that had no reverse entry, under an address
that had none. -/
theorem pairs_kept_together (ipnet : IPNet) (size : Int) (p0 p : Pool) (ops : List Op)
    (hnew : New ipnet size = some (.ok p0)) (hs1 : 1 ≤ size)
    (hs2 : size < sub32 p0.max p0.min) (hrun : p0.run ops = some p) :
    (∀ host a, a.length = 4 →
      (p.forward host = some (Val.ip a) ↔ p.reverse a = some (Val.str host))) ∧
    (∀ host x, p.forward host = some x →
      ∃ a, x = Val.ip a ∧ a.length = 4 ∧ p.reverse a = some (Val.str host)) ∧
    (∀ o x, assoc (Key.u32 o) p.cache.lru = some x →
      ∃ host a, x = Val.str host ∧ a.length = 4 ∧ p.forward host = some (Val.ip a) ∧
        p.reverse a = some (Val.str host)) ∧
    p.hosts.Nodup ∧ (p.hosts.length : Int) ≤ size ∧
    (∀ h1 h2 a, p.forward h1 = some (Val.ip a) → p.forward h2 = some (Val.ip a) → h1 = h2) ∧
    (∀ host, p.forward host = none →
      ∃ p1 a, p.Lookup host = some (p1, a) ∧ p.cache.Exist (Key.u32 p1.offset) = false ∧
        p.reverse a = none ∧ p1.forward host = some (Val.ip a)) := by
  obtain ⟨hc0, hcap0⟩ := New_Coupled hnew
  have hw0 := New_WF hnew
  obtain ⟨hw, hsc⟩ := run_WF hw0 hrun
  have hc := run_Coupled hs1 ops hw0 hc0 hcap0 hs2 hrun
  have hcap : p.cache.maxSize = 2 * size := by rw [hsc.2.2.2.2]; exact hcap0
  have hM : size < sub32 p.max p.min := by rw [hsc.1, hsc.2.1]; exact hs2
  have hfwd : ∀ host a, p.forward host = some (Val.ip a) →
      a.length = 4 ∧ p.reverse a = some (Val.str host) := by
    intro host a h
    obtain ⟨a', hx, hl, hr⟩ := Coupled_fwd hw hc h
    simp only [Val.ip.injEq] at hx
    subst hx
    exact ⟨hl, hr⟩
  refine ⟨?_, ?_, ?_, ?_, ?_, ?_, ?_⟩
  · intro host a hl
    refine ⟨fun h => (hfwd host a h).2, fun h => ?_⟩
    obtain ⟨n, hn, hlt⟩ := ipToUint_of_length hl
    rw [reverse_of_length p hl hn] at h
    obtain ⟨host', v, hv, ho, hx, hf⟩ := Coupled_rev hw hc h
    simp only [Val.str.injEq] at hx
    subst hx
    have hnv := offsetOf_inj hlt hv ho
    subst hnv
    rw [uintToIP_ipToUint hl hn] at hf
    exact hf
  · intro host x h
    exact Coupled_fwd hw hc h
  · intro o x h
    obtain ⟨host, v, hv, ho, hx, hf⟩ := Coupled_rev hw hc h
    exact ⟨host, uintToIP v, hx, length_uintToIP v, hf, (hfwd host _ hf).2⟩
  · exact nodup_hosts hw.nodup
  · have h1 := hc.paired.length_hosts
    have h2 := hw.size_le
    simp only [Pool.hosts]
    omega
  · intro h1 h2 a hf1 hf2
    have e1 := (hfwd h1 a hf1).2
    rw [(hfwd h2 a hf2).2] at e1
    simp only [Option.some.injEq, Val.str.injEq] at e1
    exact e1.symm
  · intro host h
    obtain ⟨p1, a, hL, -, hex, hr, hf⟩ := Lookup_miss_Coupled hw hc hcap hs1 hM h
    exact ⟨p1, a, hL, hex, hr, hf⟩

/-- C20, at a concrete input: the pool of 198.18.0.0/29 with size 2 after Lookup of a.com,
b.com and c.com. -/
theorem pairs_kept_together_witness :
    (∀ host a, a.length = 4 →
      (coupledPool.forward host = some (Val.ip a)
        ↔ coupledPool.reverse a = some (Val.str host))) ∧
    (∀ host x, coupledPool.forward host = some x →
      ∃ a, x = Val.ip a ∧ a.length = 4 ∧ coupledPool.reverse a = some (Val.str host)) ∧
    (∀ o x, assoc (Key.u32 o) coupledPool.cache.lru = some x →
      ∃ host a, x = Val.str host ∧ a.length = 4 ∧
        coupledPool.forward host = some (Val.ip a) ∧
        coupledPool.reverse a = some (Val.str host)) ∧
    coupledPool.hosts.Nodup ∧ (coupledPool.hosts.length : Int) ≤ 2 ∧
    (∀ h1 h2 a, coupledPool.forward h1 = some (Val.ip a) →
      coupledPool.forward h2 = some (Val.ip a) → h1 = h2) ∧
    (∀ host, coupledPool.forward host = none →
      ∃ p1 a, coupledPool.Lookup host = some (p1, a) ∧
        coupledPool.cache.Exist (Key.u32 p1.offset) = false ∧
        coupledPool.reverse a = none ∧ p1.forward host = some (Val.ip a)) :=
  pairs_kept_together net29 2 smallPool29 coupledPool
    [.Lookup "a.com", .Lookup "b.com", .Lookup "c.com"] rfl (by decide) (by decide) (by decide)

end Fakeip

/-! ## The claims on the proxy facade -/

namespace Outbound

open FifoLog

theorem Put_then_Pop {α : Type} (q : Queue α) (v : α) (hc : q.capacity = 10)
    (hl : q.items.length ≤ 10) :
    (if 10 < (q.Put v).Len then (q.Put v).Pop.1 else q.Put v)
      = ⟨10, (q.items ++ [v]).drop (q.items.length + 1 - 10)⟩ := by
  obtain ⟨cap, items⟩ := q
  simp only at hc hl
  subst hc
  by_cases h10 : items.length = 10
  · have h1 : (10 : Nat) < (items ++ [v]).length := by simp [h10]
    have h2 : ¬ 10 < (items ++ [v]).tail.length := by simp [h10]
    have h3 : items.length + 1 - 10 = 1 := by omega
    simp only [Queue.Put, if_pos h1, Queue.Len, if_neg h2, h3, List.drop_one]
  · have h1 : ¬ (10 : Nat) < (items ++ [v]).length := by simp; omega
    have h3 : items.length + 1 - 10 = 0 := by omega
    simp only [Queue.Put, if_neg h1, Queue.Len, h3, List.drop_zero]

theorem getLast?_drop_append {α : Type} (l : List α) (v : α) (k : Nat) (hk : k ≤ l.length) :
    ((l ++ [v]).drop k).getLast? = some v := by
  rw [List.drop_append_of_le_length hk, List.getLast?_append, List.getLast?_singleton]
  rfl

/-- C8, as stated, fails: after a probe that goes through in 65535 ms on a new facade, the
facade is alive, its history is not empty and its most recent delay is 65535, which is not 0,
and LastDelay returns 65535. -/
theorem LastDelay_max_delay :
    (NewProxy.URLTest probe65535).1.LastDelay = 65535 ∧
    (NewProxy.URLTest probe65535).1.alive = true ∧
    (NewProxy.URLTest probe65535).1.history.Copy = [⟨1, 65535⟩] ∧
    (NewProxy.URLTest probe65535).1.history.Last = some ⟨1, 65535⟩ ∧
    (65535 : Nat) ≠ 0 ∧ (65535 : Nat) < 65536 := by
  decide

/-- C8, amended: LastDelay returns 65535 if and only if alive is false, or the history is
empty, or the most recent record has delay 0 or delay 65535; in every state that is alive with
a most recent record of non-zero delay it returns that delay. -/
theorem LastDelay_spec (p : Proxy) :
    (p.LastDelay = 65535 ↔
      p.alive = false ∨ p.history.Len = 0 ∨
        ∃ r, p.history.Last = some r ∧ (r.Delay = 0 ∨ r.Delay = 65535)) ∧
    (∀ r, p.alive = true → p.history.Last = some r → r.Delay ≠ 0 → p.LastDelay = r.Delay) := by
  obtain ⟨alive, cap, items⟩ := p
  have hlen : (Queue.mk cap items).Len = 0 ↔ items.getLast? = none := by
    simp [Queue.Len, List.getLast?_eq_none_iff]
  constructor
  · cases alive with
    | false => simp [Proxy.LastDelay]
    | true =>
      simp only [Proxy.LastDelay, Bool.not_true, Bool.false_eq_true, if_false, false_or, hlen,
        Queue.Last]
      cases hlast : items.getLast? with
      | none => simp
      | some r =>
        by_cases h0 : r.Delay = 0
        · simp [h0]
        · simp [h0]
  · intro r ha hr h0
    simp only at ha
    subst ha
    simp only [Queue.Last] at hr
    simp [Proxy.LastDelay, Queue.Last, hr, h0]

/-- C8, amended, at a concrete input: a new facade after a probe that goes through in
250 ms. -/
theorem LastDelay_spec_witness :
    ((NewProxy.URLTest probe250).1.LastDelay = 65535 ↔
      (NewProxy.URLTest probe250).1.alive = false ∨ (NewProxy.URLTest probe250).1.history.Len = 0 ∨
        ∃ r, (NewProxy.URLTest probe250).1.history.Last = some r ∧
          (r.Delay = 0 ∨ r.Delay = 65535)) ∧
    (NewProxy.URLTest probe250).1.LastDelay = 250 :=
  ⟨(LastDelay_spec (NewProxy.URLTest probe250).1).1,
    (LastDelay_spec (NewProxy.URLTest probe250).1).2 ⟨1, 250⟩ (by decide) (by decide)
      (by decide)⟩

theorem URLTestBody_spec (p : Proxy) (env : ProbeEnv) :
    ∃ p1 t err, p.URLTestBody env = (p1, t, err) ∧ p1.history = p.history ∧
      (err = none ↔ env.succeeds) ∧ (env.succeeds → t = env.elapsed % 65536) ∧
      (¬ env.succeeds → t = 0) := by
  obtain ⟨now, md, ⟨conn, de⟩, rq, sd, el⟩ := env
  cases md <;> cases de <;> cases rq <;> cases sd <;>
    exact ⟨_, _, _, rfl, rfl, by simp [ProbeEnv.succeeds], by simp [ProbeEnv.succeeds],
      by simp [ProbeEnv.succeeds]⟩

theorem URLTest_eq (p : Proxy) (env : ProbeEnv) (hv : p.Valid) :
    ∃ t err, p.URLTest env =
        ({ alive := decide (err = none),
           history := ⟨10, (p.history.items ++
              [DelayHistory.mk env.now (if err = none then t else 0)]).drop (p.history.items.length + 1 - 10)⟩ },
          t, err) ∧
      (err = none ↔ env.succeeds) ∧ (env.succeeds → t = env.elapsed % 65536) ∧
      (¬ env.succeeds → t = 0) := by
  obtain ⟨p1, t, err, hb, hh, hs, ht1, ht2⟩ := URLTestBody_spec p env
  refine ⟨t, err, ?_, hs, ht1, ht2⟩
  simp only [Proxy.URLTest, hb, hh, Put_then_Pop _ _ hv.1 hv.2]

/-- C9: every call of URLTest on a facade that holds at most 10 records in a history of
capacity 10, whatever its collaborators do, returns no error exactly when every step goes
through, leaves alive true exactly when it returns no error, and appends exactly one record,
stamped with the time of the call, whose delay is the returned delay when no error is
returned and 0 otherwise: the history afterwards is the history before with that record
appended, cut to its 10 latest records. After a call that returns an error LastDelay returns 65535. -/
theorem URLTest_records (p : Proxy) (env : ProbeEnv) (hv : p.Valid) :
    ((p.URLTest env).2.2 = none ↔ env.succeeds) ∧
    ((p.URLTest env).1.alive = true ↔ (p.URLTest env).2.2 = none) ∧
    (env.succeeds → (p.URLTest env).2.1 = env.elapsed % 65536) ∧
    (¬ env.succeeds → (p.URLTest env).2.1 = 0) ∧
    (p.URLTest env).1.history.Copy
      = (p.history.Copy ++
          [DelayHistory.mk env.now (if (p.URLTest env).2.2 = none then (p.URLTest env).2.1 else 0)]).drop
            (p.history.Len + 1 - 10) ∧
    (p.URLTest env).1.history.Last
      = some (DelayHistory.mk env.now (if (p.URLTest env).2.2 = none then (p.URLTest env).2.1 else 0)) ∧
    ((p.URLTest env).2.2 ≠ none → (p.URLTest env).1.LastDelay = 65535) ∧
    (p.URLTest env).1.Valid := by
  obtain ⟨t, err, hU, hs, ht1, ht2⟩ := URLTest_eq p env hv
  have hk : p.history.items.length + 1 - 10 ≤ p.history.items.length := by omega
  rw [hU]
  refine ⟨hs, by simp, ht1, ht2, rfl, ?_, ?_, rfl, ?_⟩
  · exact getLast?_drop_append _ _ _ hk
  · intro he
    simp [Proxy.LastDelay, he]
  · have := hv.2
    simp only [List.length_drop, List.length_append, List.length_singleton]
    omega

/-- C9, at a concrete input: a probe whose dial fails, on a new facade. -/
theorem URLTest_records_witness :
    ((NewProxy.URLTest probeUnreachable).2.2 = none ↔ probeUnreachable.succeeds) ∧
    ((NewProxy.URLTest probeUnreachable).1.alive = true
      ↔ (NewProxy.URLTest probeUnreachable).2.2 = none) ∧
    (probeUnreachable.succeeds
      → (NewProxy.URLTest probeUnreachable).2.1 = probeUnreachable.elapsed % 65536) ∧
    (¬ probeUnreachable.succeeds → (NewProxy.URLTest probeUnreachable).2.1 = 0) ∧
    (NewProxy.URLTest probeUnreachable).1.history.Copy
      = (NewProxy.history.Copy ++
          [DelayHistory.mk probeUnreachable.now (if (NewProxy.URLTest probeUnreachable).2.2 = none
              then (NewProxy.URLTest probeUnreachable).2.1 else 0)]).drop
            (NewProxy.history.Len + 1 - 10) ∧
    (NewProxy.URLTest probeUnreachable).1.history.Last
      = some (DelayHistory.mk probeUnreachable.now
          (if (NewProxy.URLTest probeUnreachable).2.2 = none
            then (NewProxy.URLTest probeUnreachable).2.1 else 0)) ∧
    ((NewProxy.URLTest probeUnreachable).2.2 ≠ none
      → (NewProxy.URLTest probeUnreachable).1.LastDelay = 65535) ∧
    (NewProxy.URLTest probeUnreachable).1.Valid :=
  URLTest_records NewProxy probeUnreachable ⟨rfl, by decide⟩

end Outbound

namespace Outbound

open FifoLog

theorem DelayHistory_eq_items (p : Proxy) : p.DelayHistory = p.history.items := by
  have h : ∀ (l acc : List DelayHistory),
      l.foldl (fun histories item => histories ++ [item]) acc = acc ++ l := by
    intro l
    induction l with
    | nil => intro acc; simp
    | cons x t ih => intro acc; simp [ih]
  simp [Proxy.DelayHistory, Queue.Copy, h]

theorem URLTest_history (p : Proxy) (env : ProbeEnv) (hv : p.Valid) :
    (p.URLTest env).1.history.items
        = (p.history.items ++ [recordOf env]).drop (p.history.items.length + 1 - 10) ∧
      (p.URLTest env).1.Valid := by
  obtain ⟨t, err, hU, hs, ht1, ht2⟩ := URLTest_eq p env hv
  have hrec : DelayHistory.mk env.now (if err = none then t else 0) = recordOf env := by
    unfold recordOf
    by_cases h : env.succeeds
    · rw [if_pos (hs.2 h), if_pos h, ht1 h]
    · rw [if_neg (fun h1 => h (hs.1 h1)), if_neg h]
  rw [hU, hrec]
  refine ⟨rfl, rfl, ?_⟩
  have := hv.2
  simp only [List.length_drop, List.length_append, List.length_singleton]
  omega

theorem probes_history (envs : List ProbeEnv) :
    ∀ p : Proxy, p.Valid →
      (p.probes envs).history.items
          = (p.history.items ++ envs.map recordOf).drop
              (p.history.items.length + envs.length - 10) ∧
        (p.probes envs).Valid := by
  induction envs with
  | nil =>
    intro p hv
    have := hv.2
    have h0 : p.history.items.length + 0 - 10 = 0 := by omega
    simp only [Proxy.probes, List.map_nil, List.append_nil, List.length_nil, h0, List.drop_zero]
    exact ⟨trivial, hv⟩
  | cons env envs ih =>
    intro p hv
    obtain ⟨h1, hv1⟩ := URLTest_history p env hv
    obtain ⟨h2, hv2⟩ := ih _ hv1
    refine ⟨?_, hv2⟩
    have hlen := hv.2
    have hk : p.history.items.length + 1 - 10 ≤ (p.history.items ++ [recordOf env]).length := by
      simp only [List.length_append, List.length_singleton]; omega
    have hl1 : (p.URLTest env).1.history.items.length
        = p.history.items.length + 1 - (p.history.items.length + 1 - 10) := by
      rw [h1]; simp only [List.length_drop, List.length_append, List.length_singleton]
    simp only [Proxy.probes]
    rw [h2, hl1, h1, ← List.drop_append_of_le_length hk, List.drop_drop, List.append_assoc,
      List.map_cons, List.singleton_append, List.length_cons]
    congr 1
    omega

/-- C13, as stated, fails: a probe on a new facade that goes through in 65536 ms returns and
records the delay 0, not min(65536, 65535) = 65535. -/
theorem URLTest_delay_wraps :
    probe65536.succeeds ∧ probe65536.elapsed = 65536 ∧
    (NewProxy.URLTest probe65536).2.1 = 0 ∧
    (NewProxy.URLTest probe65536).1.history.Last = some ⟨1, 0⟩ ∧
    min 65536 65535 = 65535 := by
  decide

/-- C13, amended: for every probe in which every step goes through, with e whole milliseconds
elapsed, the delay that URLTest returns and records is e mod 65536, the low 16 bits of e; it
is min(e, 65535), which is e itself, whenever e is at most 65535. -/
theorem URLTest_delay (p : Proxy) (env : ProbeEnv) (hv : p.Valid) (hs : env.succeeds) :
    (p.URLTest env).2.1 = env.elapsed % 65536 ∧
    (p.URLTest env).1.history.Last = some ⟨env.now, env.elapsed % 65536⟩ ∧
    (env.elapsed ≤ 65535 → (p.URLTest env).2.1 = min env.elapsed 65535) := by
  obtain ⟨t, err, hU, hs1, ht1, -⟩ := URLTest_eq p env hv
  have hk : p.history.items.length + 1 - 10 ≤ p.history.items.length := by omega
  have ht := ht1 hs
  have he := hs1.2 hs
  rw [hU]
  refine ⟨ht, ?_, fun hle => ?_⟩
  · simp only [Queue.Last, he, if_true, ht]
    exact getLast?_drop_append _ _ _ hk
  · simp only [ht]
    omega

/-- C13, amended, at a concrete input: a probe that goes through in 250 ms on a new facade. -/
theorem URLTest_delay_witness :
    (NewProxy.URLTest probe250).2.1 = probe250.elapsed % 65536 ∧
    (NewProxy.URLTest probe250).1.history.Last
      = some ⟨probe250.now, probe250.elapsed % 65536⟩ ∧
    (probe250.elapsed ≤ 65535 → (NewProxy.URLTest probe250).2.1 = min probe250.elapsed 65535) :=
  URLTest_delay NewProxy probe250 ⟨rfl, by decide⟩ (by decide)

/-- C14: DialContext, and Dial, return exactly the connection and the error of the wrapped
adapter; a non-nil error sets alive to false, a nil error leaves alive as it was, and in both
cases the history is left as it was. -/
theorem DialContext_liveness_only (p : Proxy) (adapter : Conn × Error) :
    (p.DialContext adapter).2 = adapter ∧
    (adapter.2 ≠ none → (p.DialContext adapter).1.alive = false) ∧
    (adapter.2 = none → (p.DialContext adapter).1.alive = p.alive) ∧
    (p.DialContext adapter).1.history = p.history ∧
    (p.DialContext adapter).1.DelayHistory = p.DelayHistory ∧
    p.Dial adapter = p.DialContext adapter := by
  obtain ⟨conn, err⟩ := adapter
  cases err with
  | none => simp [Proxy.DialContext, Proxy.Dial]
  | some e => simp [Proxy.DialContext, Proxy.Dial, Proxy.DelayHistory]

/-- C14, at a concrete input: a failing dial on a facade that holds one record. -/
theorem DialContext_liveness_only_witness :
    ((NewProxy.URLTest probe250).1.DialContext (none, some "timeout")).2
      = (none, some "timeout") ∧
    ((NewProxy.URLTest probe250).1.DialContext (none, some "timeout")).1.alive = false ∧
    ((NewProxy.URLTest probe250).1.DialContext (none, some "timeout")).1.history
      = (NewProxy.URLTest probe250).1.history :=
  ⟨(DialContext_liveness_only (NewProxy.URLTest probe250).1 (none, some "timeout")).1,
    (DialContext_liveness_only (NewProxy.URLTest probe250).1 (none, some "timeout")).2.1
      (by decide),
    (DialContext_liveness_only (NewProxy.URLTest probe250).1 (none, some "timeout")).2.2.2.1⟩

theorem Pop_items {α : Type} (q : Queue α) : q.Pop.1 = { q with items := q.items.tail } := by
  obtain ⟨cap, items⟩ := q
  cases items with
  | nil => rfl
  | cons x t => rfl

/-- One put followed by the pop of URLTest, on a queue that retains up to `c` items by itself,
`c` at least 10: whether it is the put (`c = 10`) or the pop (`c > 10`) that drops the oldest
record, the ten latest are kept. -/
theorem Put_then_Pop_cap {α : Type} (q : Queue α) (v : α) (hc : 10 ≤ q.capacity)
    (hl : q.items.length ≤ 10) :
    (if 10 < (q.Put v).Len then (q.Put v).Pop.1 else q.Put v)
      = ⟨q.capacity, (q.items ++ [v]).drop (q.items.length + 1 - 10)⟩ := by
  obtain ⟨cap, items⟩ := q
  simp only at hc hl
  by_cases h10 : items.length = 10
  · have h3 : items.length + 1 - 10 = 1 := by omega
    by_cases hcap : cap < (items ++ [v]).length
    · have h2 : ¬ 10 < (items ++ [v]).tail.length := by simp [h10]
      simp only [Queue.Put, if_pos hcap, Queue.Len, if_neg h2, h3, List.drop_one]
    · have h2 : 10 < (items ++ [v]).length := by simp [h10]
      simp only [Queue.Put, if_neg hcap, Queue.Len, if_pos h2, Pop_items, h3, List.drop_one]
  · have h1 : ¬ cap < (items ++ [v]).length := by
      simp only [List.length_append, List.length_singleton]; omega
    have h2 : ¬ 10 < (items ++ [v]).length := by
      simp only [List.length_append, List.length_singleton]; omega
    have h3 : items.length + 1 - 10 = 0 := by omega
    simp only [Queue.Put, if_neg h1, Queue.Len, if_neg h2, h3, List.drop_zero]

theorem URLTest_history_cap (p : Proxy) (env : ProbeEnv) (hc : 10 ≤ p.history.capacity)
    (hl : p.history.items.length ≤ 10) :
    (p.URLTest env).1.history
      = ⟨p.history.capacity,
          (p.history.items ++ [recordOf env]).drop (p.history.items.length + 1 - 10)⟩ := by
  obtain ⟨p1, t, err, hb, hh, hs, ht1, ht2⟩ := URLTestBody_spec p env
  have hrec : DelayHistory.mk env.now (if err = none then t else 0) = recordOf env := by
    unfold recordOf
    by_cases h : env.succeeds
    · rw [if_pos (hs.2 h), if_pos h, ht1 h]
    · rw [if_neg (fun h1 => h (hs.1 h1)), if_neg h]
  simp only [Proxy.URLTest, hb, hh, Put_then_Pop_cap _ _ hc hl, hrec]

theorem probes_history_cap (envs : List ProbeEnv) :
    ∀ p : Proxy, 10 ≤ p.history.capacity → p.history.items.length ≤ 10 →
      (p.probes envs).history.items
        = (p.history.items ++ envs.map recordOf).drop
            (p.history.items.length + envs.length - 10) := by
  induction envs with
  | nil =>
    intro p _ hl
    have h0 : p.history.items.length + 0 - 10 = 0 := by omega
    simp only [Proxy.probes, List.map_nil, List.append_nil, List.length_nil, h0, List.drop_zero]
  | cons env envs ih =>
    intro p hc hl
    have h1 := URLTest_history_cap p env hc hl
    have hk : p.history.items.length + 1 - 10 ≤ (p.history.items ++ [recordOf env]).length := by
      simp only [List.length_append, List.length_singleton]; omega
    have hl1 : (p.URLTest env).1.history.items.length
        = p.history.items.length + 1 - (p.history.items.length + 1 - 10) := by
      rw [h1]; simp only [List.length_drop, List.length_append, List.length_singleton]
    have h2 := ih (p.URLTest env).1 (by rw [h1]; exact hc) (by rw [hl1]; omega)
    simp only [Proxy.probes]
    rw [h2, hl1, h1]
    simp only
    rw [← List.drop_append_of_le_length hk, List.drop_drop, List.append_assoc,
      List.map_cons, List.singleton_append, List.length_cons]
    congr 1
    omega

/-- On a queue that retains more items than there are probes, the puts alone keep every
record: nothing but the pop of URLTest bounds the history there. -/
theorem putAll_keeps_all (envs : List ProbeEnv) :
    ∀ q : Queue DelayHistory, q.items.length + envs.length ≤ q.capacity →
      (putAll q envs).items = q.items ++ envs.map recordOf := by
  induction envs with
  | nil => intro q _; simp [putAll]
  | cons env envs ih =>
    intro q h
    rw [List.length_cons] at h
    have h1 : ¬ q.capacity < (q.items ++ [recordOf env]).length := by
      simp only [List.length_append, List.length_singleton]; omega
    have h2 : q.Put (recordOf env) = { q with items := q.items ++ [recordOf env] } := by
      simp only [Queue.Put, if_neg h1]
    simp only [putAll]
    rw [ih _ (by rw [h2]; simp only [List.length_append, List.length_singleton]; omega), h2]
    simp

/-- C16: after any sequence of n URLTest calls on a facade created by NewProxy, DelayHistory()
has length min(n, 10) and is the list of the records of the last min(n, 10) calls, oldest
first. This holds for every number c, at least 10, of items that the history queue retains by
itself: for c = 10, the queue of NewProxy and of the spec, and for any larger c, where Put
only appends (on a queue with c above n the n puts alone keep all n records) and it is the
pop of URLTest, when more than 10 records are held, that bounds the history. -/
theorem DelayHistory_last_ten (envs : List ProbeEnv) :
    (∀ c, 10 ≤ c →
      ((NewProxyWith c).probes envs).DelayHistory
          = (envs.map recordOf).drop (envs.length - 10) ∧
        ((NewProxyWith c).probes envs).DelayHistory.length = min envs.length 10) ∧
    (∀ c, envs.length ≤ c → (putAll (NewProxyWith c).history envs).items = envs.map recordOf) ∧
    (NewProxy.probes envs).DelayHistory = (envs.map recordOf).drop (envs.length - 10) ∧
    (NewProxy.probes envs).DelayHistory.length = min envs.length 10 := by
  have hgen : ∀ c, 10 ≤ c →
      ((NewProxyWith c).probes envs).DelayHistory
          = (envs.map recordOf).drop (envs.length - 10) ∧
        ((NewProxyWith c).probes envs).DelayHistory.length = min envs.length 10 := by
    intro c hc
    have h1 := probes_history_cap envs (NewProxyWith c) hc (by simp [NewProxyWith])
    have h2 : ((NewProxyWith c).probes envs).DelayHistory
        = (envs.map recordOf).drop (envs.length - 10) := by
      rw [DelayHistory_eq_items, h1]
      simp [NewProxyWith]
    refine ⟨h2, ?_⟩
    rw [h2, List.length_drop, List.length_map]
    omega
  refine ⟨hgen, ?_, hgen 10 (Nat.le_refl _)⟩
  intro c hc
  rw [putAll_keeps_all envs _ (by simp [NewProxyWith]; exact hc)]
  simp [NewProxyWith]

/-- C16, at a concrete input: twelve probes on a facade whose queue retains up to 1000 items
by itself. -/
theorem DelayHistory_last_ten_witness :
    ((NewProxyWith 1000).probes probes12).DelayHistory
        = (probes12.map recordOf).drop (probes12.length - 10) ∧
      ((NewProxyWith 1000).probes probes12).DelayHistory.length = min probes12.length 10 :=
  (DelayHistory_last_ten probes12).1 1000 (by decide)

/-- C16, on twelve probes and a queue that retains up to 1000 items by itself: the twelve puts
alone keep twelve records, and the history after the twelve URLTest calls holds the records
stamped 3 to 12, oldest first. -/
theorem DelayHistory_twelve_unbounded :
    (putAll (NewProxyWith 1000).history probes12).Len = 12 ∧
    ((NewProxyWith 1000).probes probes12).DelayHistory
      = [⟨3, 103⟩, ⟨4, 0⟩, ⟨5, 105⟩, ⟨6, 0⟩, ⟨7, 107⟩, ⟨8, 0⟩, ⟨9, 109⟩, ⟨10, 0⟩, ⟨11, 111⟩,
          ⟨12, 0⟩] := by
  decide

/-- C16, on twelve probes: the history holds the records stamped 3 to 12, oldest first. -/
theorem DelayHistory_twelve :
    (NewProxy.probes probes12).DelayHistory
      = [⟨3, 103⟩, ⟨4, 0⟩, ⟨5, 105⟩, ⟨6, 0⟩, ⟨7, 107⟩, ⟨8, 0⟩, ⟨9, 109⟩, ⟨10, 0⟩, ⟨11, 111⟩,
          ⟨12, 0⟩] := by
  decide

end Outbound

/-! ## The claims on the pooled tunnel connections -/

namespace Tunnel

/-- C17: PoolConn.Read returns what the underlying Read returns, connection and buffer
included, unless that Read fails with the zero-chunk error while the flag reply, as saved
before it, was false; in that case it sets the flag to false and returns what one further
underlying Read returns. So a zero-chunk error comes back to the caller whenever the flag was
true before the call, and whenever the further Read fails with it too. -/
theorem PoolConn_Read_spec {σ : Type} (read : Snell σ → Buf → Snell σ × Buf × Nat × Error)
    (pc : Snell σ) (b : Buf) :
    ((read pc b).2.2.2 ≠ some Err.ZeroChunk → PoolConn.Read read pc b = read pc b) ∧
    ((read pc b).2.2.2 = some Err.ZeroChunk → pc.reply = true →
      PoolConn.Read read pc b = read pc b ∧
        (PoolConn.Read read pc b).2.2.2 = some Err.ZeroChunk) ∧
    ((read pc b).2.2.2 = some Err.ZeroChunk → pc.reply = false →
      PoolConn.Read read pc b = read { (read pc b).1 with reply := false } (read pc b).2.1 ∧
        ((read { (read pc b).1 with reply := false } (read pc b).2.1).2.2.2
            = some Err.ZeroChunk →
          (PoolConn.Read read pc b).2.2.2 = some Err.ZeroChunk)) := by
  unfold PoolConn.Read
  rcases hr : read pc b with ⟨s1, b1, n, err⟩
  refine ⟨fun h => ?_, fun h hrep => ?_, fun h hrep => ?_⟩
  · simp only at h
    simp only [if_neg h]
  · simp only at h
    simp only [if_pos h, hrep, Bool.not_true, Bool.false_eq_true, if_false]
    exact ⟨trivial, h⟩
  · simp only at h
    simp only [if_pos h, hrep, Bool.not_false, if_true]
    exact ⟨trivial, fun h2 => h2⟩

/-- C17, on scripted connections: a zero chunk and then 5 bytes, with the flag false, gives
the 5 bytes; the same with the flag true gives the zero-chunk error; two zero chunks in a
row, with the flag false, give the zero-chunk error. -/
theorem PoolConn_Read_spec_witness :
    PoolConn.Read scriptedRead ⟨false, [(0, some Err.ZeroChunk), (5, none)]⟩ []
      = (⟨true, []⟩, [], 5, none) ∧
    PoolConn.Read scriptedRead ⟨true, [(0, some Err.ZeroChunk), (5, none)]⟩ []
      = (⟨true, [(5, none)]⟩, [], 0, some Err.ZeroChunk) ∧
    (PoolConn.Read scriptedRead ⟨false, [(0, some Err.ZeroChunk), (0, some Err.ZeroChunk)]⟩
      []).2.2.2 = some Err.ZeroChunk :=
  ⟨((PoolConn_Read_spec scriptedRead ⟨false, [(0, some Err.ZeroChunk), (5, none)]⟩ []).2.2
      (by decide) (by decide)).1.trans (by decide),
    ((PoolConn_Read_spec scriptedRead ⟨true, [(0, some Err.ZeroChunk), (5, none)]⟩ []).2.1
      (by decide) (by decide)).1.trans (by decide),
    ((PoolConn_Read_spec scriptedRead
      ⟨false, [(0, some Err.ZeroChunk), (0, some Err.ZeroChunk)]⟩ []).2.2
      (by decide) (by decide)).2 (by decide)⟩

/-- C18, as stated, fails: on a manager that already holds ten idle connections, Put of an
eleventh connection whose handshake goes through does not retain it: the idle connections
are the ten of before, and the eleventh has been closed. -/
theorem Put_full_pool_closes :
    (halfCloseOk { reply := true, conn := 10 }).2 = none ∧
    tenIdle.pool.idle.length = 10 ∧ tenIdle.closed = [] ∧
    (tenIdle.Put halfCloseOk 0 { reply := true, conn := 10 }).pool.idle = tenIdle.pool.idle ∧
    (tenIdle.Put halfCloseOk 0 { reply := true, conn := 10 }).closed
      = [{ reply := false, conn := 10 }] := by
  decide

/-- C18, amended: PoolConn.Close returns nil and does what Put does on the connection. When
the handshake fails, Put closes the connection and leaves the underlying pool as it was.
When the handshake goes through, Put hands the connection to the underlying pool's Put and
closes nothing itself: the underlying pool retains the connection, unclosed, if fewer than
maxIdle connections are idle and its age is below maxAge, and otherwise does not retain it
and the eviction callback closes it. -/
theorem Put_spec {σ : Type} (halfClose : Snell σ → Snell σ × Error) (age : Nat) (p : Pool σ)
    (pc : Snell σ) :
    (PoolConn.Close halfClose age p pc).2 = none ∧
    (PoolConn.Close halfClose age p pc).1 = p.Put halfClose age pc ∧
    ((halfClose pc).2 ≠ none →
      (p.Put halfClose age pc).pool = p.pool ∧
        (p.Put halfClose age pc).closed = p.closed ++ [(halfClose pc).1]) ∧
    ((halfClose pc).2 = none →
      (p.Put halfClose age pc).pool = (p.pool.Put (halfClose pc).1 age).1 ∧
        (p.Put halfClose age pc).closed
          = p.closed ++ ((p.pool.Put (halfClose pc).1 age).2).toList) ∧
    ((halfClose pc).2 = none → p.pool.idle.length < p.pool.maxIdle → age < p.pool.maxAge →
      (p.Put halfClose age pc).pool.idle = p.pool.idle ++ [((halfClose pc).1, age)] ∧
        (p.Put halfClose age pc).closed = p.closed) ∧
    ((halfClose pc).2 = none → ¬ (p.pool.idle.length < p.pool.maxIdle ∧ age < p.pool.maxAge) →
      (p.Put halfClose age pc).pool = p.pool ∧
        (p.Put halfClose age pc).closed = p.closed ++ [(halfClose pc).1]) := by
  rcases hh : halfClose pc with ⟨conn1, err⟩
  refine ⟨rfl, rfl, ?_, ?_, ?_, ?_⟩
  · intro h
    cases err with
    | none => exact absurd rfl h
    | some e => simp [Pool.Put, hh]
  · intro h
    simp only at h
    subst h
    simp only [Pool.Put, hh]
    cases hp : p.pool.Put conn1 age with
    | mk pool1 ev =>
      cases ev with
      | none => simp
      | some item => simp
  · intro h h1 h2
    simp only at h
    subst h
    have hc : p.pool.idle.length < p.pool.maxIdle ∧ age < p.pool.maxAge := ⟨h1, h2⟩
    simp [Pool.Put, hh, ResourcePool.Pool.Put, hc]
  · intro h hc
    simp only at h
    subst h
    simp [Pool.Put, hh, ResourcePool.Pool.Put, hc]

/-- C18, amended, at concrete inputs: on a new manager a connection whose handshake goes
through is retained and not closed; one whose handshake fails is closed and not retained. -/
theorem Put_spec_witness :
    ((NewPool.Put halfCloseOk 0 { reply := true, conn := 7 }).pool.idle
        = (NewPool : Pool Nat).pool.idle ++ [((halfCloseOk { reply := true, conn := 7 }).1, 0)] ∧
      (NewPool.Put halfCloseOk 0 { reply := true, conn := 7 }).closed
        = (NewPool : Pool Nat).closed) ∧
    ((NewPool.Put halfCloseFails 0 { reply := true, conn := 7 }).pool = (NewPool : Pool Nat).pool ∧
      (NewPool.Put halfCloseFails 0 { reply := true, conn := 7 }).closed
        = (NewPool : Pool Nat).closed ++ [(halfCloseFails { reply := true, conn := 7 }).1]) :=
  ⟨(Put_spec halfCloseOk 0 NewPool { reply := true, conn := 7 }).2.2.2.2.1 (by decide)
      (by decide) (by decide),
    (Put_spec halfCloseFails 0 NewPool { reply := true, conn := 7 }).2.2.1 (by decide)⟩

end Tunnel
